import Mathlib

/-!
Verification development for the flashcard-wire mind-map application.

The definitions below are shallow embeddings of the TypeScript source:

* `src/services/geminiService.ts` — `buildTreeFromFlat`, `isTransientNetworkError`,
  `withRetry`;
* `src/components/MindMap.tsx` (and the identical copy in `src/unnamed/part_002`) —
  `layoutTree`, `calculateTreeWidth`, `flattenNodes`, `handleWheel`, and the pinch
  logic of `handlePointerDown` / `handlePointerMove`;
* `src/unnamed/part_001` (App.tsx) — `formatMindMapForPdf`.

JavaScript numbers are modelled by `ℚ`: every arithmetic operation appearing in the
embedded code (addition, subtraction, multiplication, division, `max`) is exact on
the rationals, matching the ideal real-number reading of the source.  Mutable
`Map`/array state is modelled by explicit association lists and folds.  The object
graph produced by `buildTreeFromFlat` (nodes referencing each other through the
`Map`) is represented by the id-keyed graph `buildLink` produces, together with the
depth-bounded reading `unfoldId`; on acyclic graphs the reading is independent of
the bound once it exceeds the depth.
-/

namespace FlashcardWire

/-- Rose tree mirroring the `MindMapNodeData` interface of `src/types.ts`:
`{id, topic, content, children}`. -/
inductive MindMapNodeData : Type where
  | mk (id topic content : String) (children : List MindMapNodeData)

namespace MindMapNodeData

/-- Field accessor mirroring `node.id`. -/
def id : MindMapNodeData → String
  | .mk i _ _ _ => i

/-- Field accessor mirroring `node.topic`. -/
def topic : MindMapNodeData → String
  | .mk _ t _ _ => t

/-- Field accessor mirroring `node.content`. -/
def content : MindMapNodeData → String
  | .mk _ _ c _ => c

/-- Field accessor mirroring `node.children`. -/
def children : MindMapNodeData → List MindMapNodeData
  | .mk _ _ _ cs => cs

end MindMapNodeData

/-- Structural induction for the nested inductive `MindMapNodeData`: to prove a
property of every tree it suffices to prove it for a node assuming it for every
member of its child list. -/
theorem mindMapNodeInd (P : MindMapNodeData → Prop)
    (h : ∀ i t c cs, (∀ x ∈ cs, P x) → P (.mk i t c cs)) : ∀ n, P n
  | .mk i t c cs =>
    h i t c cs (fun x hx =>
      have : sizeOf x < sizeOf (MindMapNodeData.mk i t c cs) := by
        have hlt := List.sizeOf_lt_of_mem hx
        simp only [MindMapNodeData.mk.sizeOf_spec]
        omega
      mindMapNodeInd P h x)
termination_by n => sizeOf n

mutual

/-- Boolean structural equality on trees (used to derive decidable equality,
which the nested inductive cannot auto-derive). -/
def nodeBEq : MindMapNodeData → MindMapNodeData → Bool
  | .mk i t c cs, .mk i' t' c' cs' =>
      decide (i = i') && decide (t = t') && decide (c = c') && nodeListBEq cs cs'

/-- Boolean structural equality on lists of trees. -/
def nodeListBEq : List MindMapNodeData → List MindMapNodeData → Bool
  | [], [] => true
  | a :: as, b :: bs => nodeBEq a b && nodeListBEq as bs
  | _, _ => false

end

/-- `nodeBEq` decides propositional equality. -/
theorem nodeBEq_iff : ∀ a b : MindMapNodeData, nodeBEq a b = true ↔ a = b := by
  intro a
  induction a using mindMapNodeInd with
  | _ i t c cs ih =>
      intro b
      cases b with
      | mk i' t' c' cs' =>
          simp only [nodeBEq, Bool.and_eq_true, decide_eq_true_eq,
            MindMapNodeData.mk.injEq]
          constructor
          · rintro ⟨⟨⟨h1, h2⟩, h3⟩, h4⟩
            refine ⟨h1, h2, h3, ?_⟩
            clear h1 h2 h3
            induction cs generalizing cs' with
            | nil => cases cs' <;> simp_all [nodeListBEq]
            | cons x xs ihl =>
                cases cs' with
                | nil => simp [nodeListBEq] at h4
                | cons y ys =>
                    simp only [nodeListBEq, Bool.and_eq_true] at h4
                    have hx := (ih x (by simp) y).mp h4.1
                    have hxs := ihl (fun z hz => ih z (by simp [hz])) ys h4.2
                    simp [hx, hxs]
          · rintro ⟨h1, h2, h3, h4⟩
            subst h1; subst h2; subst h3; subst h4
            refine ⟨⟨⟨rfl, rfl⟩, rfl⟩, ?_⟩
            induction cs with
            | nil => simp [nodeListBEq]
            | cons x xs ihl =>
                simp only [nodeListBEq, Bool.and_eq_true]
                exact ⟨(ih x (by simp) x).mpr rfl, ihl (fun z hz => ih z (by simp [hz]))⟩

instance : DecidableEq MindMapNodeData :=
  fun a b => decidable_of_iff (nodeBEq a b = true) (nodeBEq_iff a b)

/-- Flat wire record mirroring `FlatMindMapNode` of `src/services/geminiService.ts`:
`{id: string; parentId: string; topic: string; content: string}`. -/
structure FlatMindMapNode where
  id : String
  parentId : String
  topic : String
  content : String
deriving DecidableEq, Repr

/-- Value stored in the builder's `Map<string, MindMapNodeData>`: the scalar fields
of a node plus its children, represented by their ids (object references in the
JavaScript heap are resolved through the id-keyed map). -/
structure NodeRec where
  topic : String
  content : String
  children : List String
deriving DecidableEq, Repr

/-- JavaScript `Map.set`: overwrite the value at an existing key in place, append a
new entry otherwise. -/
def mapSet {κ V : Type} [DecidableEq κ] : List (κ × V) → κ → V → List (κ × V)
  | [], k, v => [(k, v)]
  | (k₀, v₀) :: rest, k, v =>
      if k₀ = k then (k, v) :: rest else (k₀, v₀) :: mapSet rest k v

/-- JavaScript `Map.get` (as an `Option`): the value at the first (and, for maps
built by `mapSet`, only) entry with the given key. -/
def mapGet {κ V : Type} [DecidableEq κ] : List (κ × V) → κ → Option V
  | [], _ => none
  | e :: rest, k => if e.1 = k then some e.2 else mapGet rest k

/-- JavaScript `Map.has`. -/
def mapHas {κ V : Type} [DecidableEq κ] (m : List (κ × V)) (k : κ) : Bool :=
  (mapGet m k).isSome

/-- First pass of `buildTreeFromFlat` (geminiService.ts line 74-77): for every
record, `map.set(it.id, {id, topic, content, children: []})`, so duplicate ids are
overwritten last-write-wins. -/
def phase1 (items : List FlatMindMapNode) : List (String × NodeRec) :=
  items.foldl (fun m it => mapSet m it.id ⟨it.topic, it.content, []⟩) []

/-- `map.get(parentId)!.children.push(node)`: append the child id to the entry at
the parent key (the first entry with that key, which is unique in maps built by
`mapSet`). -/
def addChild : List (String × NodeRec) → String → String → List (String × NodeRec)
  | [], _, _ => []
  | e :: rest, p, c =>
      if e.1 = p then (e.1, ⟨e.2.topic, e.2.content, e.2.children ++ [c]⟩) :: rest
      else e :: addChild rest p c

/-- One iteration of the linking loop (geminiService.ts line 79-87): attach the
node to its parent when `parentId` is non-empty and present in the map, otherwise
push it onto `roots`.  (`it.parentId || ''` is the identity on `String` values.) -/
def linkStep (st : List (String × NodeRec) × List String) (it : FlatMindMapNode) :
    List (String × NodeRec) × List String :=
  if it.parentId ≠ "" ∧ mapHas st.1 it.parentId then
    (addChild st.1 it.parentId it.id, st.2)
  else
    (st.1, st.2 ++ [it.id])

/-- Both passes of `buildTreeFromFlat`: the id-keyed node map after all children
have been pushed, together with the `roots` array in push order. -/
def buildLink (items : List FlatMindMapNode) : List (String × NodeRec) × List String :=
  items.foldl linkStep (phase1 items, [])

/-- Depth-bounded reading of the object graph as a `MindMapNodeData` value: node
`i` with its children expanded up to the given depth.  On an acyclic graph this
stabilises once the bound exceeds the depth of the graph. -/
def unfoldId (m : List (String × NodeRec)) : Nat → String → MindMapNodeData
  | 0, i => .mk i "" "" []
  | fuel + 1, i =>
      match mapGet m i with
      | some n => .mk i n.topic n.content (n.children.map (unfoldId m fuel))
      | none => .mk i "" "" []

/-- `buildTreeFromFlat` (geminiService.ts line 72-95): build the map, link children,
return the unique root if there is exactly one root candidate, and otherwise the
synthetic root `{id: 'root', topic: 'Mind Map', content: 'Auto-constructed root',
children: roots}`.  `fuel` bounds the depth of the graph reading. -/
def buildTreeFromFlat (items : List FlatMindMapNode) (fuel : Nat) : MindMapNodeData :=
  match (buildLink items).2 with
  | [r] => unfoldId (buildLink items).1 fuel r
  | _ =>
      .mk "root" "Mind Map" "Auto-constructed root"
        ((buildLink items).2.map (unfoldId (buildLink items).1 fuel))

/-- Whether some record in the list has the given id (= membership of the id among
the keys of the phase-1 map). -/
def hasId (items : List FlatMindMapNode) (i : String) : Bool :=
  items.any (fun it => it.id = i)

/-- The linking loop attaches a record exactly when its `parentId` is non-empty and
matches some record's id. -/
def isAttached (items : List FlatMindMapNode) (it : FlatMindMapNode) : Bool :=
  (!(it.parentId = "" : Bool)) && hasId items it.parentId

/-- The root candidates of a record list, one per record occurrence, in input
order: the records that the linking loop pushes onto `roots`. -/
def rootCandidateIds (items : List FlatMindMapNode) : List String :=
  (items.filter (fun it => !(isAttached items it))).map (·.id)

/-- `mapGet` after `mapSet` at the same key. -/
theorem mapGet_mapSet_self {κ V : Type} [DecidableEq κ] (m : List (κ × V)) (k : κ) (v : V) :
    mapGet (mapSet m k v) k = some v := by
  induction m with
  | nil => simp [mapSet, mapGet]
  | cons e rest ih =>
      by_cases h : e.1 = k
      · simp [mapSet, h, mapGet]
      · simp only [mapSet]
        rw [if_neg h]
        simpa [mapGet, h] using ih

/-- `mapGet` after `mapSet` at a different key. -/
theorem mapGet_mapSet_ne {κ V : Type} [DecidableEq κ] (m : List (κ × V)) (k k' : κ) (v : V)
    (h : k ≠ k') : mapGet (mapSet m k v) k' = mapGet m k' := by
  induction m with
  | nil => simp [mapSet, mapGet, h]
  | cons e rest ih =>
      by_cases he : e.1 = k
      · subst he
        simp [mapSet, mapGet, h]
      · simp only [mapSet]
        rw [if_neg he]
        by_cases he' : e.1 = k'
        · simp [mapGet, he']
        · simpa [mapGet, he'] using ih

/-- Key membership in the phase-1 map is exactly `hasId`. -/
theorem mapHas_phase1 (items : List FlatMindMapNode) (k : String) :
    mapHas (phase1 items) k = hasId items k := by
  suffices h : ∀ (l : List FlatMindMapNode) (m : List (String × NodeRec)),
      mapHas (l.foldl (fun m it => mapSet m it.id ⟨it.topic, it.content, []⟩) m) k =
        (mapHas m k || l.any (fun it => it.id = k)) by
    simpa [phase1, hasId] using h items []
  intro l
  induction l with
  | nil => simp
  | cons it rest ih =>
      intro m
      simp only [List.foldl_cons, List.any_cons]
      rw [ih]
      by_cases hk : it.id = k
      · subst hk
        simp [mapHas, mapGet_mapSet_self]
      · rw [show mapHas (mapSet m it.id ⟨it.topic, it.content, []⟩) k = mapHas m k by
          simp [mapHas, mapGet_mapSet_ne m it.id k _ hk]]
        simp [hk]

/-- Reading the map after `addChild`: the entry at the parent key gains the child,
every other entry is unchanged. -/
theorem mapGet_addChild (m : List (String × NodeRec)) (p c k : String) :
    mapGet (addChild m p c) k =
      (mapGet m k).map
        (fun n => if k = p then ⟨n.topic, n.content, n.children ++ [c]⟩ else n) := by
  induction m with
  | nil => simp [addChild, mapGet]
  | cons e rest ih =>
      by_cases hp : e.1 = p
      · by_cases hk : e.1 = k
        · have hkp : k = p := hk ▸ hp
          simp [addChild, mapGet, hp, hk, hkp]
        · have hkp : ¬(k = p) := fun h => hk (hp.trans h.symm)
          have hpk : ¬(p = k) := fun h => hk (hp.trans h)
          simp [addChild, mapGet, hp, hk, hkp, hpk]
      · by_cases hk : e.1 = k
        · have hkp : ¬(k = p) := fun h => hp (h ▸ hk)
          simp [addChild, mapGet, hp, hk, hkp]
        · simp only [addChild]
          rw [if_neg hp]
          simpa [mapGet, hk] using ih

/-- `addChild` does not change which keys are present. -/
theorem mapHas_addChild (m : List (String × NodeRec)) (p c : String) (k : String) :
    mapHas (addChild m p c) k = mapHas m k := by
  simp [mapHas, mapGet_addChild]

/-- A `linkStep` never changes which keys are present. -/
theorem mapHas_linkStep (st : List (String × NodeRec) × List String) (it : FlatMindMapNode)
    (k : String) : mapHas (linkStep st it).1 k = mapHas st.1 k := by
  unfold linkStep
  split
  · exact mapHas_addChild st.1 it.parentId it.id k
  · rfl

/-- The `roots` array produced by the linking loop is exactly the list of root
candidates, one entry per record occurrence, in input order. -/
theorem buildLink_roots (items : List FlatMindMapNode) :
    (buildLink items).2 = rootCandidateIds items := by
  suffices h : ∀ (l : List FlatMindMapNode) (m : List (String × NodeRec)) (r : List String),
      (∀ k, mapHas m k = hasId items k) →
      (l.foldl linkStep (m, r)).2 =
        r ++ (l.filter (fun it => !(isAttached items it))).map (·.id) by
    exact (h items (phase1 items) [] (mapHas_phase1 items)).trans (by simp [rootCandidateIds])
  intro l
  induction l with
  | nil => intro m r _; simp
  | cons it rest ih =>
      intro m r hm
      simp only [List.foldl_cons]
      have hstep : ∀ k, mapHas (linkStep (m, r) it).1 k = hasId items k := by
        intro k; rw [mapHas_linkStep]; exact hm k
      by_cases hatt : it.parentId ≠ "" ∧ mapHas m it.parentId
      · have hbool : isAttached items it = true := by
          have := hm it.parentId
          simp only [isAttached, Bool.and_eq_true, Bool.not_eq_true']
          constructor
          · exact decide_eq_false hatt.1
          · rw [← this]; exact hatt.2
        have : linkStep (m, r) it = (addChild m it.parentId it.id, r) := by
          simp [linkStep, hatt]
        rw [this] at hstep ⊢
        rw [ih (addChild m it.parentId it.id) r hstep]
        simp [List.filter_cons, hbool]
      · have hbool : isAttached items it = false := by
          rcases Decidable.not_and_iff_or_not.mp hatt with h | h
          · have : it.parentId = "" := by
              by_contra hne; exact h hne
            simp [isAttached, this]
          · have : hasId items it.parentId = false := by
              rw [← hm it.parentId]
              exact Bool.eq_false_iff.mpr (fun hh => h (by simp [hh]))
            simp [isAttached, this]
        have : linkStep (m, r) it = (m, r ++ [it.id]) := by
          simp only [linkStep]
          rw [if_neg hatt]
        rw [this]
        rw [ih m (r ++ [it.id]) hm]
        simp [List.filter_cons, hbool]

/-- The attachment condition tested by the linking loop agrees with `isAttached`
whenever the map has the same keys as the phase-1 map. -/
theorem linkCond_iff (items : List FlatMindMapNode) (m : List (String × NodeRec))
    (hm : ∀ k, mapHas m k = hasId items k) (it : FlatMindMapNode) :
    (it.parentId ≠ "" ∧ mapHas m it.parentId) ↔ isAttached items it = true := by
  rw [hm it.parentId]
  simp [isAttached]

/-- The ids pushed onto the children array of the node with id `p`, one per
attached record occurrence with that parent, in input order. -/
def childList (items : List FlatMindMapNode) (p : String) : List String :=
  (items.filter (fun it => isAttached items it && decide (it.parentId = p))).map (·.id)

/-- Reading the fully linked map: every entry keeps its phase-1 scalar fields and
accumulates exactly the `childList` of its key. -/
theorem mapGet_buildLink (items : List FlatMindMapNode) (p : String) :
    mapGet (buildLink items).1 p =
      (mapGet (phase1 items) p).map
        (fun n => ⟨n.topic, n.content, n.children ++ childList items p⟩) := by
  suffices h : ∀ (l : List FlatMindMapNode) (m : List (String × NodeRec)) (r : List String),
      (∀ k, mapHas m k = hasId items k) →
      mapGet (l.foldl linkStep (m, r)).1 p =
        (mapGet m p).map
          (fun n => ⟨n.topic, n.content,
            n.children ++
              (l.filter (fun it => isAttached items it && decide (it.parentId = p))).map
                (·.id)⟩) by
    simpa [buildLink, childList] using h items (phase1 items) [] (mapHas_phase1 items)
  intro l
  induction l with
  | nil =>
      intro m r _
      simp only [List.foldl_nil, List.filter_nil, List.map_nil, List.append_nil]
      cases mapGet m p <;> rfl
  | cons it rest ih =>
      intro m r hm
      simp only [List.foldl_cons]
      by_cases hatt : it.parentId ≠ "" ∧ mapHas m it.parentId
      · have hbool : isAttached items it = true := (linkCond_iff items m hm it).mp hatt
        have hstep : linkStep (m, r) it = (addChild m it.parentId it.id, r) := by
          simp [linkStep, hatt]
        rw [hstep]
        have hkeys : ∀ k, mapHas (addChild m it.parentId it.id) k = hasId items k := by
          intro k; rw [mapHas_addChild]; exact hm k
        rw [ih (addChild m it.parentId it.id) r hkeys, mapGet_addChild]
        by_cases hp : it.parentId = p
        · subst hp
          cases mapGet m it.parentId <;> simp [List.filter_cons, hbool]
        · have hp' : ¬(p = it.parentId) := fun h => hp h.symm
          cases mapGet m p <;> simp [List.filter_cons, hbool, hp, hp']
      · have hbool : isAttached items it = false :=
          Bool.eq_false_iff.mpr (fun hh => hatt ((linkCond_iff items m hm it).mpr hh))
        have hstep : linkStep (m, r) it = (m, r ++ [it.id]) := by
          simp only [linkStep]
          rw [if_neg hatt]
        rw [hstep, ih m (r ++ [it.id]) hm]
        simp [List.filter_cons, hbool]

/-- The depth-bounded graph reading keeps the id it starts from. -/
theorem unfoldId_id (m : List (String × NodeRec)) (fuel : Nat) (i : String) :
    (unfoldId m fuel i).id = i := by
  cases fuel with
  | zero => rfl
  | succ fuel =>
      simp only [unfoldId]
      cases mapGet m i <;> rfl

/-- C1 (amended): root-resolution policy of `buildTreeFromFlat`.  If exactly one
root candidate exists it becomes the returned tree's root; otherwise the returned
root is the synthetic node with id `root`, topic `Mind Map` and the fixed
non-empty content `Auto-constructed root`, whose children are exactly the root
candidates in input order; on the empty list the result is the childless
synthetic root. -/
theorem buildTree_root_resolution (items : List FlatMindMapNode) (fuel : Nat) :
    (∀ r, rootCandidateIds items = [r] → (buildTreeFromFlat items fuel).id = r) ∧
    ((rootCandidateIds items).length ≠ 1 →
      (buildTreeFromFlat items fuel).id = "root" ∧
      (buildTreeFromFlat items fuel).topic = "Mind Map" ∧
      (buildTreeFromFlat items fuel).content = "Auto-constructed root" ∧
      (buildTreeFromFlat items fuel).children.map MindMapNodeData.id =
        rootCandidateIds items) ∧
    buildTreeFromFlat [] fuel = .mk "root" "Mind Map" "Auto-constructed root" [] := by
  have hroots := buildLink_roots items
  refine ⟨?_, ?_, ?_⟩
  · intro r hr
    unfold buildTreeFromFlat
    rw [hroots, hr]
    exact unfoldId_id _ fuel r
  · intro hlen
    unfold buildTreeFromFlat
    rw [hroots]
    rcases hcase : rootCandidateIds items with _ | ⟨r, _ | ⟨r', rest⟩⟩
    · simp [MindMapNodeData.id, MindMapNodeData.topic, MindMapNodeData.content,
        MindMapNodeData.children]
    · exact absurd (by rw [hcase]; rfl) hlen
    · refine ⟨rfl, rfl, rfl, ?_⟩
      show ((r :: r' :: rest).map (unfoldId (buildLink items).1 fuel)).map
          MindMapNodeData.id = r :: r' :: rest
      rw [List.map_map]
      rw [show (MindMapNodeData.id ∘ unfoldId (buildLink items).1 fuel) = id from
        funext (fun j => unfoldId_id _ fuel j)]
      simp
  · rfl

/-- C1 counterexample: on the empty record list the synthetic root's content is
the fixed string `Auto-constructed root`, not the empty string the claim
states. -/
theorem buildTree_synthetic_content_not_empty :
    ¬((buildTreeFromFlat [] 1).content = "") := by decide

/-- Concrete two-record list with the single root candidate `a`. -/
def sampleRecords : List FlatMindMapNode :=
  [⟨"a", "", "Root", ""⟩, ⟨"b", "a", "Child", ""⟩]

/-- Concrete single-record list whose record is its own parent. -/
def selfParentRecords : List FlatMindMapNode :=
  [⟨"x", "x", "T", "C"⟩]

/-- Witness for the root-resolution theorem at concrete inputs: `sampleRecords`
has the unique root candidate `a`, and `selfParentRecords` has none, so the
synthetic root is produced. -/
theorem buildTree_root_resolution_witness :
    (buildTreeFromFlat sampleRecords 2).id = "a" ∧
    (buildTreeFromFlat selfParentRecords 2).id = "root" :=
  ⟨(buildTree_root_resolution sampleRecords 2).1 "a" (by decide),
   ((buildTree_root_resolution selfParentRecords 2).2.1 (by decide)).1⟩

/-- A record in the list makes `hasId` true for its id. -/
theorem hasId_of_mem (items : List FlatMindMapNode) (it : FlatMindMapNode)
    (hmem : it ∈ items) : hasId items it.id = true := by
  simp only [hasId, List.any_eq_true]
  exact ⟨it, hmem, by simp⟩

/-- C3 (amended): a record whose `parentId` equals its own non-empty id is pushed
into its own children array by the linking loop — it is not treated as a root
candidate (shown here under pairwise-distinct ids), so it does not appear among a
synthetic root's children.  (`buildTreeFromFlat` itself still terminates: it never
walks parent chains.) -/
theorem selfParent_attached_to_itself (items : List FlatMindMapNode)
    (it : FlatMindMapNode) (hmem : it ∈ items) (hself : it.parentId = it.id)
    (hne : it.id ≠ "") :
    (∃ n, mapGet (buildLink items).1 it.id = some n ∧ it.id ∈ n.children) ∧
    ((items.map FlatMindMapNode.id).Nodup → it.id ∉ (buildLink items).2) := by
  have hhas : hasId items it.id = true := hasId_of_mem items it hmem
  have hatt : isAttached items it = true := by
    simp only [isAttached, Bool.and_eq_true, Bool.not_eq_true']
    exact ⟨decide_eq_false (by rw [hself]; exact hne), by rw [hself]; exact hhas⟩
  constructor
  · have hget := mapGet_buildLink items it.id
    have hsome : (mapGet (phase1 items) it.id).isSome = true := by
      rw [show (mapGet (phase1 items) it.id).isSome = mapHas (phase1 items) it.id from rfl,
        mapHas_phase1]
      exact hhas
    rcases Option.isSome_iff_exists.mp hsome with ⟨n0, hn0⟩
    refine ⟨⟨n0.topic, n0.content, n0.children ++ childList items it.id⟩, ?_, ?_⟩
    · rw [hget, hn0]; rfl
    · have : it.id ∈ childList items it.id := by
        simp only [childList, List.mem_map]
        refine ⟨it, ?_, rfl⟩
        rw [List.mem_filter]
        exact ⟨hmem, by simp [hatt, hself]⟩
      simp [this]
  · intro hnodup hcontra
    rw [buildLink_roots] at hcontra
    simp only [rootCandidateIds, List.mem_map] at hcontra
    rcases hcontra with ⟨x, hx, hxid⟩
    rw [List.mem_filter] at hx
    have hxit : x = it :=
      List.inj_on_of_nodup_map hnodup hx.1 hmem hxid
    rw [hxit] at hx
    rw [hatt] at hx
    simp at hx

/-- C3 counterexample: the single self-parented record `x` is not among the
children of the returned (synthetic) root — the claim says it must appear
there. -/
theorem selfParent_missing_from_root_children :
    ¬(∃ c ∈ (buildTreeFromFlat selfParentRecords 2).children,
        MindMapNodeData.id c = "x") := by decide

/-- Witness for the self-parent theorem at the concrete one-record list. -/
theorem selfParent_attached_witness :
    (∃ n, mapGet (buildLink selfParentRecords).1 "x" = some n ∧ "x" ∈ n.children) ∧
    "x" ∉ (buildLink selfParentRecords).2 :=
  ⟨(selfParent_attached_to_itself selfParentRecords ⟨"x", "x", "T", "C"⟩
      (by decide) rfl (by decide)).1,
   (selfParent_attached_to_itself selfParentRecords ⟨"x", "x", "T", "C"⟩
      (by decide) rfl (by decide)).2 (by decide)⟩

mutual

/-- Preorder list of the ids occurring in a tree (a node before its children,
children in order). -/
def treeIds : MindMapNodeData → List String
  | .mk i _ _ cs => i :: treeIdsList cs

/-- Preorder ids of a forest. -/
def treeIdsList : List MindMapNodeData → List String
  | [] => []
  | c :: rest => treeIds c ++ treeIdsList rest

end

/-- The parent a record's occurrence is attached to, resolved through the first
record with a given id: `some q` when the record with id `i` is attached to the
node with id `q`, `none` when it is a root candidate or when no record has id
`i`. -/
def parentF (items : List FlatMindMapNode) (i : String) : Option String :=
  match items.find? (fun it => it.id = i) with
  | some it => if isAttached items it then some it.parentId else none
  | none => none

/-- Iterated parent chain: follow `parentF` for the given number of hops. -/
def pIter (items : List FlatMindMapNode) : Nat → String → Option String
  | 0, i => some i
  | k + 1, i =>
      match parentF items i with
      | some q => pIter items k q
      | none => none

/-- An id whose parent chain never returns to itself in a positive number of
hops. -/
def Acyc (items : List FlatMindMapNode) (j : String) : Prop :=
  ∀ k, 0 < k → pIter items k j ≠ some j

/-- Splitting an iterated parent chain. -/
theorem pIter_add (items : List FlatMindMapNode) (a b : Nat) (i : String) :
    pIter items (a + b) i = (pIter items a i).bind (pIter items b) := by
  induction a generalizing i with
  | zero => simp [pIter]
  | succ a ih =>
      rw [Nat.succ_add]
      cases hp : parentF items i with
      | none => simp [pIter, hp]
      | some q => simp [pIter, hp, ih]

/-- A single hop is `parentF`. -/
theorem pIter_one (items : List FlatMindMapNode) (q : String) :
    pIter items 1 q = parentF items q := by
  cases hp : parentF items q <;> simp [pIter, hp]

/-- Peeling a hop off the far end of a chain. -/
theorem pIter_step_right (items : List FlatMindMapNode) (k : Nat) (i : String) :
    pIter items (k + 1) i = (pIter items k i).bind (parentF items) := by
  rw [pIter_add items k 1 i]
  cases pIter items k i with
  | none => rfl
  | some q => simp [pIter_one]

/-- Acyclicity propagates from a node to anything whose parent it is. -/
theorem Acyc_child (items : List FlatMindMapNode) (j c : String)
    (hj : Acyc items j) (hpc : parentF items c = some j) : Acyc items c := by
  intro k hk hkc
  obtain ⟨k', rfl⟩ : ∃ k', k = k' + 1 :=
    ⟨k - 1, (Nat.succ_pred_eq_of_pos hk).symm⟩
  have hkj : pIter items k' j = some c := by
    rw [show pIter items (k' + 1) c = pIter items k' j by simp [pIter, hpc]] at hkc
    exact hkc
  have : pIter items (k' + 1) j = some j := by
    rw [pIter_step_right, hkj]
    simpa using hpc
  exact hj (k' + 1) (Nat.succ_pos k') this

/-- Two chains from the same id of different lengths, each ending at a child of
the acyclic node `j`, are impossible. -/
theorem chains_lt_absurd (items : List FlatMindMapNode) (i c1 c2 j : String)
    (k1 k2 : Nat) (hlt : k1 < k2)
    (h1 : pIter items k1 i = some c1) (h2 : pIter items k2 i = some c2)
    (hp1 : parentF items c1 = some j) (hp2 : parentF items c2 = some j)
    (hj : Acyc items j) : False := by
  have hd : 0 < k2 - k1 := Nat.sub_pos_of_lt hlt
  have hsplit : pIter items (k2 - k1) c1 = some c2 := by
    have := pIter_add items k1 (k2 - k1) i
    rw [Nat.add_sub_cancel' (Nat.le_of_lt hlt), h2, h1] at this
    exact this.symm
  have hc1j : pIter items (k1 + 1) i = some j := by
    rw [pIter_step_right, h1]
    simpa using hp1
  have hc2j : pIter items (k2 + 1) i = some j := by
    rw [pIter_step_right, h2]
    simpa using hp2
  have hjj : pIter items (k2 - k1) j = some j := by
    have := pIter_add items (k1 + 1) (k2 - k1) i
    rw [show k1 + 1 + (k2 - k1) = k2 + 1 by omega, hc2j, hc1j] at this
    exact this.symm
  exact hj (k2 - k1) hd hjj

/-- Two parent chains from the same id ending at children of the same acyclic
node end at the same child. -/
theorem chains_to_children (items : List FlatMindMapNode) (i c1 c2 j : String)
    (k1 k2 : Nat)
    (h1 : pIter items k1 i = some c1) (h2 : pIter items k2 i = some c2)
    (hp1 : parentF items c1 = some j) (hp2 : parentF items c2 = some j)
    (hj : Acyc items j) : c1 = c2 := by
  rcases lt_trichotomy k1 k2 with hlt | heq | hgt
  · exact absurd (chains_lt_absurd items i c1 c2 j k1 k2 hlt h1 h2 hp1 hp2 hj) not_false
  · rw [heq, h2] at h1
    exact (Option.some_injective _ h1).symm
  · exact absurd (chains_lt_absurd items i c2 c1 j k2 k1 hgt h2 h1 hp2 hp1 hj) not_false

/-- Two parent chains from the same id ending at parentless ids end at the same
id. -/
theorem chains_to_roots (items : List FlatMindMapNode) (i r1 r2 : String)
    (k1 k2 : Nat)
    (h1 : pIter items k1 i = some r1) (h2 : pIter items k2 i = some r2)
    (hp1 : parentF items r1 = none) (hp2 : parentF items r2 = none) :
    r1 = r2 := by
  have haux : ∀ a b : String, ∀ ka kb : Nat, ka < kb →
      pIter items ka i = some a → pIter items kb i = some b →
      parentF items a = none → False := by
    intro a b ka kb hlt ha hb hpa
    have hd : 0 < kb - ka := Nat.sub_pos_of_lt hlt
    have hsplit : pIter items (kb - ka) a = some b := by
      have := pIter_add items ka (kb - ka) i
      rw [Nat.add_sub_cancel' (Nat.le_of_lt hlt), hb, ha] at this
      exact this.symm
    obtain ⟨d, hdk⟩ : ∃ d, kb - ka = d + 1 :=
      ⟨kb - ka - 1, (Nat.succ_pred_eq_of_pos hd).symm⟩
    rw [hdk, show pIter items (d + 1) a = none by simp [pIter, hpa]] at hsplit
    exact Option.noConfusion hsplit
  rcases lt_trichotomy k1 k2 with hlt | heq | hgt
  · exact absurd (haux r1 r2 k1 k2 hlt h1 h2 hp1) not_false
  · rw [heq, h2] at h1
    exact (Option.some_injective _ h1).symm
  · exact absurd (haux r2 r1 k2 k1 hgt h2 h1 hp2) not_false

/-- Every value stored by the first pass has an empty children array. -/
theorem phase1_children_nil (items : List FlatMindMapNode) (q : String) (n : NodeRec)
    (h : mapGet (phase1 items) q = some n) : n.children = [] := by
  suffices h' : ∀ (l : List FlatMindMapNode) (m : List (String × NodeRec)),
      (∀ q' n', mapGet m q' = some n' → n'.children = []) →
      ∀ q' n',
        mapGet (l.foldl (fun m it => mapSet m it.id ⟨it.topic, it.content, []⟩) m) q' =
          some n' → n'.children = [] by
    exact h' items [] (fun q' n' hq => by simp [mapGet] at hq) q n h
  intro l
  induction l with
  | nil => intro m hm; exact hm
  | cons it rest ih =>
      intro m hm
      refine ih (mapSet m it.id ⟨it.topic, it.content, []⟩) ?_
      intro q' n' hq
      by_cases hk : it.id = q'
      · subst hk
        rw [mapGet_mapSet_self] at hq
        cases hq
        rfl
      · rw [mapGet_mapSet_ne m it.id q' _ hk] at hq
        exact hm q' n' hq

/-- The children array of the linked node with id `q` is exactly `childList`. -/
theorem children_eq_childList (items : List FlatMindMapNode) (q : String) (n : NodeRec)
    (h : mapGet (buildLink items).1 q = some n) : n.children = childList items q := by
  rw [mapGet_buildLink] at h
  cases hp : mapGet (phase1 items) q with
  | none => rw [hp] at h; simp at h
  | some n0 =>
      rw [hp] at h
      simp only [Option.map_some'] at h
      rw [← Option.some_inj.mp h]
      simp [phase1_children_nil items q n0 hp]

/-- Unfolding `parentF` when the lookup succeeds. -/
theorem parentF_of_find (items : List FlatMindMapNode) (i : String)
    (it : FlatMindMapNode) (hf : items.find? (fun x => x.id = i) = some it) :
    parentF items i = if isAttached items it then some it.parentId else none := by
  unfold parentF
  rw [hf]

/-- Unfolding `parentF` when the lookup fails. -/
theorem parentF_of_find_none (items : List FlatMindMapNode) (i : String)
    (hf : items.find? (fun x => x.id = i) = none) : parentF items i = none := by
  unfold parentF
  rw [hf]

/-- Unfolding the graph reading at a key absent from the map. -/
theorem unfoldId_succ_none (m : List (String × NodeRec)) (fuel : Nat) (i : String)
    (h : mapGet m i = none) : unfoldId m (fuel + 1) i = .mk i "" "" [] := by
  simp [unfoldId, h]

/-- Unfolding the graph reading at a key present in the map. -/
theorem unfoldId_succ_some (m : List (String × NodeRec)) (fuel : Nat) (i : String)
    (n : NodeRec) (h : mapGet m i = some n) :
    unfoldId m (fuel + 1) i = .mk i n.topic n.content (n.children.map (unfoldId m fuel)) := by
  simp [unfoldId, h]

/-- Under pairwise-distinct record ids, membership in a linked node's children
array is exactly the parent relation `parentF`. -/
theorem mem_children_iff (items : List FlatMindMapNode)
    (hnodup : (items.map FlatMindMapNode.id).Nodup) (q : String) (n : NodeRec)
    (h : mapGet (buildLink items).1 q = some n) (i : String) :
    i ∈ n.children ↔ parentF items i = some q := by
  rw [children_eq_childList items q n h]
  constructor
  · intro hi
    rcases List.mem_map.mp hi with ⟨it, hit, rfl⟩
    rcases List.mem_filter.mp hit with ⟨hmem, hpred⟩
    rcases Bool.and_eq_true_iff.mp hpred with ⟨hatt, hpq⟩
    have hpq' : it.parentId = q := of_decide_eq_true hpq
    cases hf : items.find? (fun x => x.id = it.id) with
    | none =>
        have := List.find?_eq_none.mp hf it hmem
        simp at this
    | some it' =>
        have hmem' : it' ∈ items := List.mem_of_find?_eq_some hf
        have hid' : it'.id = it.id := by simpa using List.find?_some hf
        have heq : it' = it := List.inj_on_of_nodup_map hnodup hmem' hmem hid'
        rw [parentF_of_find items it.id it' hf, heq, if_pos hatt, hpq']
  · intro hp
    cases hf : items.find? (fun x => x.id = i) with
    | none =>
        rw [parentF_of_find_none items i hf] at hp
        exact absurd hp (by simp)
    | some it =>
        rw [parentF_of_find items i it hf] at hp
        by_cases hatt : isAttached items it = true
        · rw [if_pos hatt] at hp
          have hpq : it.parentId = q := Option.some_inj.mp hp
          have hmem := List.mem_of_find?_eq_some hf
          have hid : it.id = i := by simpa using List.find?_some hf
          refine List.mem_map.mpr ⟨it, List.mem_filter.mpr ⟨hmem, ?_⟩, hid⟩
          simp [hatt, hpq]
        · rw [if_neg hatt] at hp
          exact absurd hp (by simp)

/-- Under pairwise-distinct record ids, membership in the `roots` array is
exactly being a known id with no resolved parent. -/
theorem mem_roots_iff (items : List FlatMindMapNode)
    (hnodup : (items.map FlatMindMapNode.id).Nodup) (i : String) :
    i ∈ (buildLink items).2 ↔ (hasId items i = true ∧ parentF items i = none) := by
  rw [buildLink_roots]
  constructor
  · intro hi
    rcases List.mem_map.mp hi with ⟨it, hit, rfl⟩
    rcases List.mem_filter.mp hit with ⟨hmem, hpred⟩
    have hatt : isAttached items it = false := by simpa using hpred
    refine ⟨hasId_of_mem items it hmem, ?_⟩
    cases hf : items.find? (fun x => x.id = it.id) with
    | none => exact parentF_of_find_none items it.id hf
    | some it' =>
        have hmem' : it' ∈ items := List.mem_of_find?_eq_some hf
        have hid' : it'.id = it.id := by simpa using List.find?_some hf
        have heq : it' = it := List.inj_on_of_nodup_map hnodup hmem' hmem hid'
        rw [parentF_of_find items it.id it' hf, heq,
          if_neg (by rw [hatt]; exact Bool.false_ne_true)]
  · rintro ⟨hhas, hp⟩
    cases hf : items.find? (fun x => x.id = i) with
    | none =>
        exfalso
        rcases List.any_eq_true.mp hhas with ⟨it, hmem, hpred⟩
        have := List.find?_eq_none.mp hf it hmem
        exact this hpred
    | some it =>
        rw [parentF_of_find items i it hf] at hp
        have hmem := List.mem_of_find?_eq_some hf
        have hid : it.id = i := by simpa using List.find?_some hf
        have hatt : isAttached items it ≠ true := by
          intro hc
          rw [if_pos hc] at hp
          exact Option.noConfusion hp
        refine List.mem_map.mpr ⟨it, List.mem_filter.mpr ⟨hmem, ?_⟩, hid⟩
        simp [Bool.eq_false_iff.mpr hatt]

/-- Under pairwise-distinct record ids the `roots` array has no duplicates. -/
theorem roots_nodup (items : List FlatMindMapNode)
    (hnodup : (items.map FlatMindMapNode.id).Nodup) : (buildLink items).2.Nodup := by
  rw [buildLink_roots]
  exact List.Nodup.sublist (List.Sublist.map _ (List.filter_sublist _)) hnodup

/-- Under pairwise-distinct record ids every children array has no duplicates. -/
theorem childList_nodup (items : List FlatMindMapNode)
    (hnodup : (items.map FlatMindMapNode.id).Nodup) (q : String) :
    (childList items q).Nodup :=
  List.Nodup.sublist (List.Sublist.map _ (List.filter_sublist _)) hnodup

/-- A parentless id has an acyclic parent chain. -/
theorem Acyc_of_parentF_none (items : List FlatMindMapNode) (j : String)
    (h : parentF items j = none) : Acyc items j := by
  intro k hk hcontra
  obtain ⟨k', hke⟩ : ∃ k', k = k' + 1 :=
    ⟨k - 1, (Nat.succ_pred_eq_of_pos hk).symm⟩
  rw [hke] at hcontra
  simp [pIter, h] at hcontra

/-- Membership in a forest's preorder ids comes from one of its trees. -/
theorem mem_treeIdsList (cs : List MindMapNodeData) (i : String) :
    i ∈ treeIdsList cs ↔ ∃ c ∈ cs, i ∈ treeIds c := by
  induction cs with
  | nil => simp [treeIdsList]
  | cons c rest ih => simp [treeIdsList, List.mem_append, ih]

/-- Every id occurring in a depth-bounded reading rooted at a known id is a known
id. -/
theorem treeIds_hasId (items : List FlatMindMapNode) :
    ∀ fuel j, hasId items j = true →
      ∀ i ∈ treeIds (unfoldId (buildLink items).1 fuel j), hasId items i = true := by
  intro fuel
  induction fuel with
  | zero =>
      intro j hj i hi
      simp only [unfoldId, treeIds, treeIdsList] at hi
      rcases List.mem_singleton.mp hi with rfl
      exact hj
  | succ fuel ih =>
      intro j hj i hi
      cases hm : mapGet (buildLink items).1 j with
      | none =>
          rw [unfoldId_succ_none _ _ _ hm] at hi
          simp only [treeIds, treeIdsList] at hi
          rcases List.mem_singleton.mp hi with rfl
          exact hj
      | some n =>
          rw [unfoldId_succ_some _ _ _ _ hm] at hi
          simp only [treeIds] at hi
          rcases List.mem_cons.mp hi with rfl | hi'
          · exact hj
          · rcases (mem_treeIdsList _ i).mp hi' with ⟨t, ht, hit⟩
            rcases List.mem_map.mp ht with ⟨c, hc, rfl⟩
            have hcid : hasId items c = true := by
              rw [children_eq_childList items j n hm] at hc
              rcases List.mem_map.mp hc with ⟨it, hit', rfl⟩
              exact hasId_of_mem items it (List.mem_filter.mp hit').1
            exact ih c hcid i hit

/-- Counting ids over a forest of graph readings: if every tree contains each id
at most once (and witnesses a parent chain when it contains it), and chains
cannot reach two distinct forest roots, then the whole forest contains each id
at most once. -/
theorem treeIdsList_count (items : List FlatMindMapNode) (fuel : Nat)
    (cs : List String) (hnd : cs.Nodup)
    (htree : ∀ c ∈ cs, ∀ i,
      List.count i (treeIds (unfoldId (buildLink items).1 fuel c)) ≤ 1 ∧
      (1 ≤ List.count i (treeIds (unfoldId (buildLink items).1 fuel c)) →
        ∃ k, pIter items k i = some c))
    (hsep : ∀ c1, c1 ∈ cs → ∀ c2, c2 ∈ cs → c1 ≠ c2 → ∀ i k1 k2,
      pIter items k1 i = some c1 → pIter items k2 i = some c2 → False) :
    ∀ i,
      List.count i (treeIdsList (cs.map (unfoldId (buildLink items).1 fuel))) ≤ 1 ∧
      (1 ≤ List.count i (treeIdsList (cs.map (unfoldId (buildLink items).1 fuel))) →
        ∃ c ∈ cs, ∃ k, pIter items k i = some c) := by
  induction cs with
  | nil => intro i; simp [treeIdsList]
  | cons c rest ih =>
      intro i
      rcases List.nodup_cons.mp hnd with ⟨hni, hndr⟩
      have ha := htree c (List.mem_cons_self c rest) i
      have hrest := ih hndr
        (fun c' hc' i' => htree c' (List.mem_cons_of_mem c hc') i')
        (fun c1 h1 c2 h2 hne i' k1 k2 p1 p2 =>
          hsep c1 (List.mem_cons_of_mem c h1) c2 (List.mem_cons_of_mem c h2) hne i' k1 k2 p1 p2)
        i
      simp only [List.map_cons, treeIdsList, List.count_append]
      constructor
      · rcases Nat.eq_zero_or_pos
          (List.count i (treeIds (unfoldId (buildLink items).1 fuel c))) with haz | hap
        · rw [haz]
          simpa using hrest.1
        · have hbz :
              List.count i (treeIdsList (rest.map (unfoldId (buildLink items).1 fuel))) = 0 := by
            by_contra hbz
            have hbp := Nat.pos_of_ne_zero hbz
            rcases hrest.2 hbp with ⟨c', hc', k', hchain'⟩
            rcases ha.2 hap with ⟨k, hchain⟩
            have hne : c ≠ c' := fun h => hni (h ▸ hc')
            exact hsep c (List.mem_cons_self c rest) c' (List.mem_cons_of_mem c hc')
              hne i k k' hchain hchain'
          rw [hbz]
          simpa using ha.1
      · intro hsum
        rcases Nat.lt_or_ge 0 (List.count i (treeIds (unfoldId (buildLink items).1 fuel c)))
          with hap | haz
        · rcases ha.2 hap with ⟨k, hchain⟩
          exact ⟨c, List.mem_cons_self c rest, k, hchain⟩
        · have hbp : 1 ≤ List.count i (treeIdsList (rest.map (unfoldId (buildLink items).1 fuel))) := by
            omega
          rcases hrest.2 hbp with ⟨c', hc', k', hchain'⟩
          exact ⟨c', List.mem_cons_of_mem c hc', k', hchain'⟩

/-- Counting ids in a single graph reading rooted at an acyclic id: every id
occurs at most once, and an id that occurs admits a parent chain back to the
root of the reading. -/
theorem count_unfold (items : List FlatMindMapNode)
    (hnodup : (items.map FlatMindMapNode.id).Nodup) :
    ∀ fuel j, Acyc items j → ∀ i,
      List.count i (treeIds (unfoldId (buildLink items).1 fuel j)) ≤ 1 ∧
      (1 ≤ List.count i (treeIds (unfoldId (buildLink items).1 fuel j)) →
        ∃ k, pIter items k i = some j) := by
  intro fuel
  induction fuel with
  | zero =>
      intro j hj i
      simp only [unfoldId, treeIds, treeIdsList]
      constructor
      · rw [List.count_singleton']
        split <;> omega
      · intro h1
        rw [List.count_singleton'] at h1
        have hij : j = i := by
          by_contra hne
          rw [if_neg hne] at h1
          omega
        exact ⟨0, by rw [hij]; rfl⟩
  | succ fuel ihf =>
      intro j hj i
      cases hm : mapGet (buildLink items).1 j with
      | none =>
          rw [unfoldId_succ_none _ _ _ hm]
          simp only [treeIds, treeIdsList]
          constructor
          · rw [List.count_singleton']
            split <;> omega
          · intro h1
            rw [List.count_singleton'] at h1
            have hij : j = i := by
              by_contra hne
              rw [if_neg hne] at h1
              omega
            exact ⟨0, by rw [hij]; rfl⟩
      | some n =>
          have hnd : n.children.Nodup := by
            rw [children_eq_childList items j n hm]
            exact childList_nodup items hnodup j
          have hpar : ∀ c ∈ n.children, parentF items c = some j :=
            fun c hc => (mem_children_iff items hnodup j n hm c).mp hc
          have hAc : ∀ c ∈ n.children, Acyc items c :=
            fun c hc => Acyc_child items j c hj (hpar c hc)
          have htree : ∀ c ∈ n.children, ∀ i',
              List.count i' (treeIds (unfoldId (buildLink items).1 fuel c)) ≤ 1 ∧
              (1 ≤ List.count i' (treeIds (unfoldId (buildLink items).1 fuel c)) →
                ∃ k, pIter items k i' = some c) :=
            fun c hc i' => ihf c (hAc c hc) i'
          have hsep : ∀ c1, c1 ∈ n.children → ∀ c2, c2 ∈ n.children → c1 ≠ c2 →
              ∀ i' k1 k2, pIter items k1 i' = some c1 → pIter items k2 i' = some c2 →
                False :=
            fun c1 h1 c2 h2 hne i' k1 k2 p1 p2 =>
              hne (chains_to_children items i' c1 c2 j k1 k2 p1 p2 (hpar c1 h1) (hpar c2 h2) hj)
          have hlist := treeIdsList_count items fuel n.children hnd htree hsep i
          rw [unfoldId_succ_some _ _ _ _ hm]
          simp only [treeIds]
          by_cases hij : i = j
          · subst hij
            have hz :
                List.count i (treeIdsList (n.children.map (unfoldId (buildLink items).1 fuel))) = 0 := by
              by_contra hc
              rcases hlist.2 (Nat.pos_of_ne_zero hc) with ⟨c, hcm, k, hchain⟩
              have : pIter items (k + 1) i = some i := by
                rw [pIter_step_right, hchain]
                simpa using hpar c hcm
              exact hj (k + 1) (Nat.succ_pos k) this
            rw [List.count_cons_self, hz]
            exact ⟨by omega, fun _ => ⟨0, rfl⟩⟩
          · rw [List.count_cons_of_ne hij]
            refine ⟨hlist.1, fun h1 => ?_⟩
            rcases hlist.2 h1 with ⟨c, hcm, k, hchain⟩
            refine ⟨k + 1, ?_⟩
            rw [pIter_step_right, hchain]
            simpa using hpar c hcm

/-- C2 (amended): duplicate ids overwrite scalar fields last-write-wins in the id
map, but the linking loop attaches once per record occurrence, so an id can label
more than one node occurrence; when the record ids are pairwise distinct and the
reserved id `root` is not used by any record, the returned tree contains no
identifier twice. -/
theorem buildTree_ids_nodup (items : List FlatMindMapNode) (fuel : Nat)
    (hnodup : (items.map FlatMindMapNode.id).Nodup)
    (hroot : "root" ∉ items.map FlatMindMapNode.id) :
    (treeIds (buildTreeFromFlat items fuel)).Nodup := by
  have hasId_iff : ∀ i, hasId items i = true ↔ i ∈ items.map FlatMindMapNode.id := by
    intro i
    constructor
    · intro h
      rcases List.any_eq_true.mp h with ⟨it, hmem, hp⟩
      exact List.mem_map.mpr ⟨it, hmem, of_decide_eq_true hp⟩
    · intro h
      rcases List.mem_map.mp h with ⟨it, hmem, hid⟩
      exact List.any_eq_true.mpr ⟨it, hmem, decide_eq_true hid⟩
  have hroots_fact : ∀ r ∈ (buildLink items).2,
      hasId items r = true ∧ parentF items r = none :=
    fun r hr => (mem_roots_iff items hnodup r).mp hr
  have hsynth : ∀ roots : List String, roots = (buildLink items).2 →
      (treeIds (.mk "root" "Mind Map" "Auto-constructed root"
        (roots.map (unfoldId (buildLink items).1 fuel)))).Nodup := by
    intro roots hre
    have hrnd : roots.Nodup := hre ▸ roots_nodup items hnodup
    have htree : ∀ c ∈ roots, ∀ i,
        List.count i (treeIds (unfoldId (buildLink items).1 fuel c)) ≤ 1 ∧
        (1 ≤ List.count i (treeIds (unfoldId (buildLink items).1 fuel c)) →
          ∃ k, pIter items k i = some c) :=
      fun c hc i =>
        count_unfold items hnodup fuel c
          (Acyc_of_parentF_none items c (hroots_fact c (hre ▸ hc)).2) i
    have hsep : ∀ c1, c1 ∈ roots → ∀ c2, c2 ∈ roots → c1 ≠ c2 →
        ∀ i k1 k2, pIter items k1 i = some c1 → pIter items k2 i = some c2 → False :=
      fun c1 h1 c2 h2 hne i k1 k2 p1 p2 =>
        hne (chains_to_roots items i c1 c2 k1 k2 p1 p2
          (hroots_fact c1 (hre ▸ h1)).2 (hroots_fact c2 (hre ▸ h2)).2)
    have hlist := treeIdsList_count items fuel roots hrnd htree hsep
    rw [List.nodup_iff_count_le_one]
    intro a
    simp only [treeIds]
    by_cases ha : a = "root"
    · subst ha
      have hz :
          List.count "root"
            (treeIdsList (roots.map (unfoldId (buildLink items).1 fuel))) = 0 := by
        rw [List.count_eq_zero]
        intro hmem
        rcases (mem_treeIdsList _ _).mp hmem with ⟨t, ht, hit⟩
        rcases List.mem_map.mp ht with ⟨r, hr, rfl⟩
        have : hasId items "root" = true :=
          treeIds_hasId items fuel r (hroots_fact r (hre ▸ hr)).1 _ hit
        exact hroot ((hasId_iff "root").mp this)
      rw [List.count_cons_self, hz]
    · rw [List.count_cons_of_ne ha]
      exact (hlist a).1
  unfold buildTreeFromFlat
  rcases hr : (buildLink items).2 with _ | ⟨r, _ | ⟨r2, rest⟩⟩
  · exact hsynth [] hr.symm
  · have hrmem : r ∈ (buildLink items).2 := by rw [hr]; exact List.mem_singleton.mpr rfl
    have hAc : Acyc items r := Acyc_of_parentF_none items r (hroots_fact r hrmem).2
    rw [List.nodup_iff_count_le_one]
    intro a
    exact (count_unfold items hnodup fuel r hAc a).1
  · exact hsynth (r :: r2 :: rest) hr.symm

/-- Three records in which the id `a` occurs twice with the same parent. -/
def dupRecords : List FlatMindMapNode :=
  [⟨"r", "", "R", ""⟩, ⟨"a", "r", "A", ""⟩, ⟨"a", "r", "A", ""⟩]

/-- C2 counterexample: with a duplicated input id the returned tree carries the
id `a` twice — the same node object is attached once per record occurrence, so
the tree does contain an identifier twice. -/
theorem buildTree_duplicate_id_appears_twice :
    List.count "a" (treeIds (buildTreeFromFlat dupRecords 3)) = 2 ∧
    ¬(treeIds (buildTreeFromFlat dupRecords 3)).Nodup := by decide

/-- Witness for the no-duplicate-ids theorem at the concrete two-record list. -/
theorem buildTree_ids_nodup_witness :
    (treeIds (buildTreeFromFlat sampleRecords 2)).Nodup :=
  buildTree_ids_nodup sampleRecords 2 (by decide) (by decide)

/-- Whether `needle` occurs as a contiguous run inside the character list
(JavaScript `String.prototype.includes`). -/
def listHasInfix (needle : List Char) : List Char → Bool
  | [] => needle.isEmpty
  | c :: rest => needle.isPrefixOf (c :: rest) || listHasInfix needle rest

/-- JavaScript `hay.includes(needle)` on strings. -/
def strContains (hay needle : String) : Bool :=
  listHasInfix needle.data hay.data

/-- ASCII lower-casing of one character (the vocabulary matched against is ASCII,
so this is the relevant fragment of `toLowerCase()`). -/
def charLower (c : Char) : Char :=
  if 65 ≤ c.toNat ∧ c.toNat ≤ 90 then Char.ofNat (c.toNat + 32) else c

/-- JavaScript `String.prototype.toLowerCase` on the ASCII fragment. -/
def strToLower (s : String) : String := ⟨s.data.map charLower⟩

/-- `isTransientNetworkError` (geminiService.ts line 99-110): classify an error by
its stringified message, lower-cased, against the network-outage vocabulary.  The
error is modelled by its message string (`String(err?.message || err || '')`). -/
def isTransientNetworkError (msg : String) : Bool :=
  let m := strToLower msg
  strContains m "unavailable" ||
  strContains m "network" ||
  strContains m "timeout" ||
  strContains m "aborted" ||
  strContains m "socket" ||
  strContains m "wsarecv" ||
  strContains m "econnreset"

/-- The retry loop of `withRetry` (geminiService.ts line 111-126), started at the
given attempt index.  The call schedule `fn` gives the outcome of the n-th call
of the wrapped function (0-based).  Returns the final outcome (the successful
value, or the last error rethrown) together with the list of sleep durations, in
order: `baseDelayMs * 2 ^ attempt` is slept before retrying attempt + 1, and only
when the error is transient and the retry budget is not exhausted. -/
def withRetryLoop {α : Type} (fn : Nat → Except String α) (retries base attempt : Nat) :
    Except String α × List Nat :=
  match fn attempt with
  | .ok v => (.ok v, [])
  | .error e =>
      if h : attempt < retries ∧ isTransientNetworkError e then
        ((withRetryLoop fn retries base (attempt + 1)).1,
         base * 2 ^ attempt :: (withRetryLoop fn retries base (attempt + 1)).2)
      else (.error e, [])
termination_by retries - attempt
decreasing_by
  have := h.1
  omega

/-- `withRetry` (geminiService.ts line 111-126): run the wrapped call with the
default loop starting at attempt 0. -/
def withRetry {α : Type} (fn : Nat → Except String α) (retries base : Nat) :
    Except String α × List Nat :=
  withRetryLoop fn retries base 0

/-- Unfolding the retry loop when the current attempt succeeds. -/
theorem withRetryLoop_ok {α : Type} (fn : Nat → Except String α)
    (retries base attempt : Nat) (v : α) (h : fn attempt = .ok v) :
    withRetryLoop fn retries base attempt = (.ok v, []) := by
  rw [withRetryLoop, h]

/-- Unfolding the retry loop when the current attempt fails and a retry is
scheduled. -/
theorem withRetryLoop_error_retry {α : Type} (fn : Nat → Except String α)
    (retries base attempt : Nat) (e : String) (h : fn attempt = .error e)
    (hc : attempt < retries ∧ isTransientNetworkError e = true) :
    withRetryLoop fn retries base attempt =
      ((withRetryLoop fn retries base (attempt + 1)).1,
       base * 2 ^ attempt :: (withRetryLoop fn retries base (attempt + 1)).2) := by
  rw [withRetryLoop, h]
  exact dif_pos hc

/-- Unfolding the retry loop when the current attempt fails and no retry is
scheduled: the last error is rethrown. -/
theorem withRetryLoop_error_stop {α : Type} (fn : Nat → Except String α)
    (retries base attempt : Nat) (e : String) (h : fn attempt = .error e)
    (hc : ¬(attempt < retries ∧ isTransientNetworkError e = true)) :
    withRetryLoop fn retries base attempt = (.error e, []) := by
  rw [withRetryLoop, h]
  exact dif_neg hc

/-- The sleeps recorded by the retry loop from any starting attempt are the
consecutive exponential backoff delays, and their number never exceeds the
remaining retry budget. -/
theorem withRetryLoop_sleeps {α : Type} (fn : Nat → Except String α)
    (retries base : Nat) :
    ∀ d attempt, retries - attempt ≤ d →
      ∃ nsl, nsl ≤ retries - attempt ∧
        (withRetryLoop fn retries base attempt).2 =
          (List.range nsl).map (fun k => base * 2 ^ (attempt + k)) := by
  intro d
  induction d with
  | zero =>
      intro attempt h
      refine ⟨0, Nat.zero_le _, ?_⟩
      cases hfn : fn attempt with
      | ok v =>
          rw [withRetryLoop_ok fn retries base attempt v hfn]
          rfl
      | error e =>
          rw [withRetryLoop_error_stop fn retries base attempt e hfn
            (fun hc => absurd hc.1 (by omega))]
          rfl
  | succ d ih =>
      intro attempt h
      cases hfn : fn attempt with
      | ok v =>
          exact ⟨0, Nat.zero_le _, by
            rw [withRetryLoop_ok fn retries base attempt v hfn]
            rfl⟩
      | error e =>
          by_cases hc : attempt < retries ∧ isTransientNetworkError e = true
          · rcases ih (attempt + 1) (by omega) with ⟨nsl, hle, hsl⟩
            refine ⟨nsl + 1, by omega, ?_⟩
            rw [withRetryLoop_error_retry fn retries base attempt e hfn hc]
            simp only [hsl, List.range_succ_eq_map, List.map_cons, List.map_map]
            refine congrArg₂ _ (by rw [Nat.add_zero]) ?_
            refine congrArg₂ _ (funext fun k => ?_) rfl
            simp only [Function.comp_apply]
            rw [show attempt + 1 + k = attempt + (k + 1) by omega]
          · exact ⟨0, Nat.zero_le _, by
              rw [withRetryLoop_error_stop fn retries base attempt e hfn hc]
              rfl⟩

/-- C4: retry policy of `withRetry`.  A transient failure on the first attempt
followed by success on the second returns the successful value and sleeps exactly
`base * 2 ^ 0` once; a non-transient first failure is rethrown immediately with
no sleep; and in every schedule the recorded sleeps are the consecutive backoff
delays `base * 2 ^ attempt`, at most `retries` of them (so at most `retries + 1`
attempts). -/
theorem withRetry_policy {α : Type} :
    (∀ (fn : Nat → Except String α) (base : Nat) (e : String) (v : α),
        fn 0 = .error e → isTransientNetworkError e = true → fn 1 = .ok v →
        withRetry fn 2 base = (.ok v, [base * 2 ^ 0])) ∧
    (∀ (fn : Nat → Except String α) (retries base : Nat) (e : String),
        fn 0 = .error e → isTransientNetworkError e = false →
        withRetry fn retries base = (.error e, [])) ∧
    (∀ (fn : Nat → Except String α) (retries base : Nat),
        ∃ nsl, nsl ≤ retries ∧
          (withRetry fn retries base).2 =
            (List.range nsl).map (fun k => base * 2 ^ k)) := by
  refine ⟨?_, ?_, ?_⟩
  · intro fn base e v h0 htr h1
    unfold withRetry
    rw [withRetryLoop_error_retry fn 2 base 0 e h0 ⟨by omega, htr⟩,
      withRetryLoop_ok fn 2 base (0 + 1) v h1]
  · intro fn retries base e h0 htr
    unfold withRetry
    rw [withRetryLoop_error_stop fn retries base 0 e h0
      (fun hc => by rw [htr] at hc; exact absurd hc.2 (by simp))]
  · intro fn retries base
    rcases withRetryLoop_sleeps fn retries base retries 0 (by omega) with ⟨nsl, hle, hsl⟩
    refine ⟨nsl, by omega, ?_⟩
    unfold withRetry
    rw [hsl]
    exact congrArg₂ _ (funext fun k => by rw [Nat.zero_add]) rfl

/-- Concrete schedule: transient network failure on attempt 0, success on
attempt 1. -/
def transientThenOk : Nat → Except String Nat :=
  fun n => if n = 0 then .error "network error" else .ok 42

/-- Concrete schedule: permanent failure on every attempt. -/
def alwaysPermanent : Nat → Except String Nat :=
  fun _ => .error "schema validation failed"

/-- Witness for the retry-policy theorem at concrete schedules: one transient
failure then success returns the value with a single `800 * 2 ^ 0` sleep, and a
permanent failure is rethrown with no sleep. -/
theorem withRetry_policy_witness :
    withRetry transientThenOk 2 800 = (.ok 42, [800 * 2 ^ 0]) ∧
    withRetry alwaysPermanent 2 800 = (.error "schema validation failed", []) :=
  ⟨withRetry_policy.1 transientThenOk 800 "network error" 42 rfl (by decide) rfl,
   withRetry_policy.2.1 alwaysPermanent 2 800 "schema validation failed" rfl (by decide)⟩

/-- Layout constant `NODE_WIDTH` of MindMap.tsx. -/
def NODE_WIDTH : ℚ := 180

/-- Layout constant `NODE_HEIGHT` of MindMap.tsx. -/
def NODE_HEIGHT : ℚ := 80

/-- Layout constant `HORIZONTAL_SPACING` of MindMap.tsx. -/
def HORIZONTAL_SPACING : ℚ := 60

/-- Layout constant `VERTICAL_SPACING` of MindMap.tsx. -/
def VERTICAL_SPACING : ℚ := 60

/-- Positioned tree mirroring the `NodePosition` interface of `src/types.ts`:
`MindMapNodeData` plus the absolute top-left coordinates `x`, `y` of the drawn
box. -/
inductive NodePosition : Type where
  | mk (id topic content : String) (x y : ℚ) (children : List NodePosition)

namespace NodePosition

/-- Field accessor mirroring `node.id`. -/
def id : NodePosition → String
  | .mk i _ _ _ _ _ => i

/-- Field accessor mirroring `node.x`. -/
def x : NodePosition → ℚ
  | .mk _ _ _ px _ _ => px

/-- Field accessor mirroring `node.y`. -/
def y : NodePosition → ℚ
  | .mk _ _ _ _ py _ => py

/-- Field accessor mirroring `node.children`. -/
def children : NodePosition → List NodePosition
  | .mk _ _ _ _ _ cs => cs

end NodePosition

/-- Structural induction for the nested inductive `NodePosition`. -/
theorem nodePositionInd (P : NodePosition → Prop)
    (h : ∀ i t c px py cs, (∀ z ∈ cs, P z) → P (.mk i t c px py cs)) : ∀ n, P n
  | .mk i t c px py cs =>
    h i t c px py cs (fun z hz =>
      have : sizeOf z < sizeOf (NodePosition.mk i t c px py cs) := by
        have hlt := List.sizeOf_lt_of_mem hz
        simp only [NodePosition.mk.sizeOf_spec]
        omega
      nodePositionInd P h z)
termination_by n => sizeOf n

mutual

/-- Boolean structural equality on positioned trees. -/
def posBEq : NodePosition → NodePosition → Bool
  | .mk i t c px py cs, .mk i' t' c' px' py' cs' =>
      decide (i = i') && decide (t = t') && decide (c = c') &&
        decide (px = px') && decide (py = py') && posListBEq cs cs'

/-- Boolean structural equality on lists of positioned trees. -/
def posListBEq : List NodePosition → List NodePosition → Bool
  | [], [] => true
  | a :: as, b :: bs => posBEq a b && posListBEq as bs
  | _, _ => false

end

/-- `posBEq` decides propositional equality. -/
theorem posBEq_iff : ∀ a b : NodePosition, posBEq a b = true ↔ a = b := by
  intro a
  induction a using nodePositionInd with
  | _ i t c px py cs ih =>
      intro b
      cases b with
      | mk i' t' c' px' py' cs' =>
          simp only [posBEq, Bool.and_eq_true, decide_eq_true_eq,
            NodePosition.mk.injEq]
          constructor
          · rintro ⟨⟨⟨⟨⟨h1, h2⟩, h3⟩, h4⟩, h5⟩, h6⟩
            refine ⟨h1, h2, h3, h4, h5, ?_⟩
            clear h1 h2 h3 h4 h5
            induction cs generalizing cs' with
            | nil => cases cs' <;> simp_all [posListBEq]
            | cons z zs ihl =>
                cases cs' with
                | nil => simp [posListBEq] at h6
                | cons w ws =>
                    simp only [posListBEq, Bool.and_eq_true] at h6
                    have hz := (ih z (by simp) w).mp h6.1
                    have hzs := ihl (fun u hu => ih u (by simp [hu])) ws h6.2
                    simp [hz, hzs]
          · rintro ⟨h1, h2, h3, h4, h5, h6⟩
            subst h1; subst h2; subst h3; subst h4; subst h5; subst h6
            refine ⟨⟨⟨⟨⟨rfl, rfl⟩, rfl⟩, rfl⟩, rfl⟩, ?_⟩
            induction cs with
            | nil => simp [posListBEq]
            | cons z zs ihl =>
                simp only [posListBEq, Bool.and_eq_true]
                exact ⟨(ih z (by simp) z).mpr rfl, ihl (fun u hu => ih u (by simp [hu]))⟩

instance : DecidableEq NodePosition :=
  fun a b => decidable_of_iff (posBEq a b = true) (posBEq_iff a b)

mutual

/-- `calculateTreeWidth` (MindMap.tsx line 65-70): a leaf occupies
`NODE_WIDTH + HORIZONTAL_SPACING`; an internal node occupies the sum of its
children's subtree widths. -/
def calculateTreeWidth : MindMapNodeData → ℚ
  | .mk _ _ _ cs => if cs.isEmpty then NODE_WIDTH + HORIZONTAL_SPACING else sumWidths cs

/-- The `children.reduce((acc, c) => acc + calculateTreeWidth(c), 0)` sum.  (The
source folds from the left starting at 0; addition on `ℚ` is associative and
commutative, so the right-fold used here has the same value.) -/
def sumWidths : List MindMapNodeData → ℚ
  | [] => 0
  | c :: rest => calculateTreeWidth c + sumWidths rest

end

mutual

/-- `layoutTree` (MindMap.tsx line 48-63): place the node's box top-left corner at
`(x, y)` and lay its children out left to right from
`x - totalWidth/2 + NODE_WIDTH/2`, where `totalWidth` is the larger of
`NODE_WIDTH` and the children's combined width, one level further down. -/
def layoutTree : MindMapNodeData → ℚ → ℚ → NodePosition
  | .mk i tp ct cs, x, y =>
      .mk i tp ct x y
        (layoutChildren cs (x - max NODE_WIDTH (sumWidths cs) / 2 + NODE_WIDTH / 2)
          (y + NODE_HEIGHT + VERTICAL_SPACING))

/-- The child-placement loop of `layoutTree`: each child's box is placed at
`currentX + childWidth/2 - NODE_WIDTH/2` and the cursor advances by the child's
subtree width. -/
def layoutChildren : List MindMapNodeData → ℚ → ℚ → List NodePosition
  | [], _, _ => []
  | c :: rest, cur, cy =>
      layoutTree c (cur + calculateTreeWidth c / 2 - NODE_WIDTH / 2) cy ::
        layoutChildren rest (cur + calculateTreeWidth c) cy

end

mutual

/-- `flattenNodes` (MindMap.tsx line 38-40): the node followed by the flattening
of its children, in order. -/
def flattenNodes : NodePosition → List NodePosition
  | .mk i tp ct px py cs => .mk i tp ct px py cs :: flattenList cs

/-- The `children.flatMap(flattenNodes)` part of `flattenNodes`. -/
def flattenList : List NodePosition → List NodePosition
  | [] => []
  | c :: rest => flattenNodes c ++ flattenList rest

end

/-- C5: the two-record scenario.  `build` on
`[{id:"a",parentId:"",topic:"Root"}, {id:"b",parentId:"a",topic:"Child"}]`
returns the tree `Root(children=[Child])`, and `layout` places `Root`'s box at
`(0, 0)` and `Child`'s box at `(0, NODE_HEIGHT + VERTICAL_SPACING)`, which is
`(0, 140)` with the code's constants `H = 80`, `Gv = 60`. -/
theorem buildTree_layout_scenario :
    buildTreeFromFlat sampleRecords 2 = .mk "a" "Root" "" [.mk "b" "Child" "" []] ∧
    layoutTree (.mk "a" "Root" "" [.mk "b" "Child" "" []]) 0 0 =
      .mk "a" "Root" "" 0 0
        [.mk "b" "Child" "" 0 (NODE_HEIGHT + VERTICAL_SPACING) []] ∧
    NODE_HEIGHT + VERTICAL_SPACING = (140 : ℚ) := by
  refine ⟨rfl, ?_, by norm_num [NODE_HEIGHT, VERTICAL_SPACING]⟩
  simp only [layoutTree, layoutChildren, calculateTreeWidth, sumWidths, List.isEmpty,
    NODE_WIDTH, NODE_HEIGHT, HORIZONTAL_SPACING, VERTICAL_SPACING,
    NodePosition.mk.injEq, List.cons.injEq, and_true, true_and]
  norm_num

/-- A leaf's subtree width. -/
theorem calculateTreeWidth_nil (i tp ct : String) :
    calculateTreeWidth (.mk i tp ct []) = NODE_WIDTH + HORIZONTAL_SPACING := by
  simp [calculateTreeWidth]

/-- An internal node's subtree width. -/
theorem calculateTreeWidth_cons (i tp ct : String) (c : MindMapNodeData)
    (rest : List MindMapNodeData) :
    calculateTreeWidth (.mk i tp ct (c :: rest)) = sumWidths (c :: rest) := by
  simp [calculateTreeWidth]

/-- Nonnegativity of a width sum, given the member bound. -/
theorem sumWidths_nonneg_of (cs : List MindMapNodeData)
    (h : ∀ c ∈ cs, NODE_WIDTH + HORIZONTAL_SPACING ≤ calculateTreeWidth c) :
    0 ≤ sumWidths cs := by
  induction cs with
  | nil => simp [sumWidths]
  | cons c rest ih =>
      have hc := h c (List.mem_cons_self c rest)
      have hrest := ih (fun z hz => h z (List.mem_cons_of_mem c hz))
      have hW : (0 : ℚ) ≤ NODE_WIDTH + HORIZONTAL_SPACING := by
        norm_num [NODE_WIDTH, HORIZONTAL_SPACING]
      simp only [sumWidths]
      linarith

/-- Every subtree width is at least `NODE_WIDTH + HORIZONTAL_SPACING` (a leaf is
exactly that, an internal node sums at least one such width). -/
theorem calculateTreeWidth_ge (t : MindMapNodeData) :
    NODE_WIDTH + HORIZONTAL_SPACING ≤ calculateTreeWidth t := by
  induction t using mindMapNodeInd with
  | _ i tp ct cs ih =>
      cases cs with
      | nil => rw [calculateTreeWidth_nil]
      | cons c rest =>
          have hc : NODE_WIDTH + HORIZONTAL_SPACING ≤ calculateTreeWidth c :=
            ih c (List.mem_cons_self c rest)
          have hrest : 0 ≤ sumWidths rest :=
            sumWidths_nonneg_of rest (fun z hz => ih z (List.mem_cons_of_mem c hz))
          rw [calculateTreeWidth_cons]
          simp only [sumWidths]
          linarith

/-- Subtree widths are nonnegative. -/
theorem calculateTreeWidth_nonneg (t : MindMapNodeData) :
    0 ≤ calculateTreeWidth t := by
  have h := calculateTreeWidth_ge t
  have : (0 : ℚ) ≤ NODE_WIDTH + HORIZONTAL_SPACING := by
    norm_num [NODE_WIDTH, HORIZONTAL_SPACING]
  linarith

/-- Sums of subtree widths are nonnegative. -/
theorem sumWidths_nonneg (cs : List MindMapNodeData) : 0 ≤ sumWidths cs := by
  induction cs with
  | nil => simp [sumWidths]
  | cons c rest ih =>
      have := calculateTreeWidth_nonneg c
      simp only [sumWidths]
      linarith

/-- A node's box is at most as wide as its subtree footprint. -/
theorem NODE_WIDTH_le_calculateTreeWidth (t : MindMapNodeData) :
    NODE_WIDTH ≤ calculateTreeWidth t := by
  have h := calculateTreeWidth_ge t
  have : (0 : ℚ) ≤ HORIZONTAL_SPACING := by norm_num [HORIZONTAL_SPACING]
  linarith

/-- For a node with children, `totalWidth = max NODE_WIDTH childrenWidth` is the
children's combined width (which is also the node's subtree width). -/
theorem totalWidth_eq (c : MindMapNodeData) (rest : List MindMapNodeData) :
    max NODE_WIDTH (sumWidths (c :: rest)) = sumWidths (c :: rest) := by
  have hc := calculateTreeWidth_ge c
  have hrest := sumWidths_nonneg rest
  have hle : NODE_WIDTH ≤ sumWidths (c :: rest) := by
    have : (0 : ℚ) ≤ HORIZONTAL_SPACING := by norm_num [HORIZONTAL_SPACING]
    simp only [sumWidths]
    linarith
  exact max_eq_right hle

/-- Every box laid out by the child loop lies inside the horizontal strip from
the cursor to the cursor plus the children's combined width. -/
theorem layoutChildren_contained (cs : List MindMapNodeData) (cur cy : ℚ)
    (hc : ∀ c ∈ cs, ∀ x y : ℚ, ∀ p ∈ flattenNodes (layoutTree c x y),
      x + NODE_WIDTH / 2 - calculateTreeWidth c / 2 ≤ p.x ∧
      p.x + NODE_WIDTH ≤ x + NODE_WIDTH / 2 + calculateTreeWidth c / 2) :
    ∀ p ∈ flattenList (layoutChildren cs cur cy),
      cur ≤ p.x ∧ p.x + NODE_WIDTH ≤ cur + sumWidths cs := by
  induction cs generalizing cur with
  | nil => intro p hp; simp [layoutChildren, flattenList] at hp
  | cons c rest ih =>
      intro p hp
      simp only [layoutChildren, flattenList] at hp
      rcases List.mem_append.mp hp with hp1 | hp2
      · have hb := hc c (List.mem_cons_self c rest)
          (cur + calculateTreeWidth c / 2 - NODE_WIDTH / 2) cy p hp1
        have hw := sumWidths_nonneg rest
        simp only [sumWidths]
        constructor <;> linarith [hb.1, hb.2]
      · have hb := ih (cur + calculateTreeWidth c)
          (fun z hz => hc z (List.mem_cons_of_mem c hz)) p hp2
        have hw := calculateTreeWidth_nonneg c
        simp only [sumWidths]
        constructor <;> linarith [hb.1, hb.2]

/-- Every box of a laid-out subtree lies inside the subtree's allotted horizontal
interval: the interval of width `calculateTreeWidth t` centred on the box centre
`x + NODE_WIDTH / 2` of the subtree's root. -/
theorem layout_contained : ∀ (t : MindMapNodeData) (x y : ℚ),
    ∀ p ∈ flattenNodes (layoutTree t x y),
      x + NODE_WIDTH / 2 - calculateTreeWidth t / 2 ≤ p.x ∧
      p.x + NODE_WIDTH ≤ x + NODE_WIDTH / 2 + calculateTreeWidth t / 2 := by
  intro t
  induction t using mindMapNodeInd with
  | _ i tp ct cs ih =>
      intro x y p hp
      simp only [layoutTree, flattenNodes] at hp
      rcases List.mem_cons.mp hp with rfl | hp'
      · have hW := NODE_WIDTH_le_calculateTreeWidth (MindMapNodeData.mk i tp ct cs)
        simp only [NodePosition.x]
        constructor <;> linarith
      · cases cs with
        | nil => simp [layoutChildren, flattenList] at hp'
        | cons c rest =>
            have hb := layoutChildren_contained (c :: rest)
              (x - max NODE_WIDTH (sumWidths (c :: rest)) / 2 + NODE_WIDTH / 2)
              (y + NODE_HEIGHT + VERTICAL_SPACING) (fun z hz => ih z hz) p hp'
            rw [totalWidth_eq c rest] at hb
            rw [calculateTreeWidth_cons]
            constructor <;> linarith [hb.1, hb.2]

/-- A member of the flattening of one list entry is a member of the flattening
of the whole list. -/
theorem mem_flattenList_of_get (l : List NodePosition) (k : Nat) (hk : k < l.length)
    (q : NodePosition) (hq : q ∈ flattenNodes (l.get ⟨k, hk⟩)) : q ∈ flattenList l := by
  induction l generalizing k with
  | nil => exact absurd hk (by simp)
  | cons a rest ih =>
      cases k with
      | zero =>
          simp only [flattenList]
          exact List.mem_append_left _ hq
      | succ k' =>
          simp only [flattenList]
          exact List.mem_append_right _ (ih k' (by simpa using hk) hq)

/-- Sibling subtrees laid out by the child loop occupy disjoint horizontal
intervals: every box of an earlier sibling's subtree ends at or before every box
of a later sibling's subtree begins. -/
theorem layoutChildren_sibling (cs : List MindMapNodeData) (cur cy : ℚ) :
    ∀ i j, i < j →
      ∀ (hi : i < (layoutChildren cs cur cy).length)
        (hj : j < (layoutChildren cs cur cy).length),
      ∀ p ∈ flattenNodes ((layoutChildren cs cur cy).get ⟨i, hi⟩),
      ∀ q ∈ flattenNodes ((layoutChildren cs cur cy).get ⟨j, hj⟩),
      p.x + NODE_WIDTH ≤ q.x := by
  induction cs generalizing cur with
  | nil =>
      intro i j hij hi hj p hp q hq
      simp [layoutChildren] at hi
  | cons c rest ih =>
      intro i j hij hi hj p hp q hq
      cases j with
      | zero => exact absurd hij (Nat.not_lt_zero i)
      | succ j' =>
          have hj' : j' < (layoutChildren rest (cur + calculateTreeWidth c) cy).length := by
            simpa [layoutChildren] using hj
          have hq' : q ∈ flattenNodes
              ((layoutChildren rest (cur + calculateTreeWidth c) cy).get ⟨j', hj'⟩) := hq
          have hqlow : cur + calculateTreeWidth c ≤ q.x := by
            have hmem := mem_flattenList_of_get _ j' hj' q hq'
            exact (layoutChildren_contained rest (cur + calculateTreeWidth c) cy
              (fun z _ x y p' hp' => layout_contained z x y p' hp') q hmem).1
          cases i with
          | zero =>
              have hp' : p ∈ flattenNodes
                  (layoutTree c (cur + calculateTreeWidth c / 2 - NODE_WIDTH / 2) cy) := hp
              have hb := (layout_contained c _ _ p hp').2
              linarith
          | succ i' =>
              have hi' : i' < (layoutChildren rest (cur + calculateTreeWidth c) cy).length := by
                simpa [layoutChildren] using hi
              exact ih (cur + calculateTreeWidth c) i' j' (Nat.lt_of_succ_lt_succ hij)
                hi' hj' p hp q hq

/-- Every member of a child-loop flattening comes from the layout of one of the
children. -/
theorem mem_flattenList_layoutChildren (cs : List MindMapNodeData) (cur cy : ℚ)
    (s : NodePosition) :
    s ∈ flattenList (layoutChildren cs cur cy) →
      ∃ c ∈ cs, ∃ x' y', s ∈ flattenNodes (layoutTree c x' y') := by
  induction cs generalizing cur with
  | nil => intro hs; simp [layoutChildren, flattenList] at hs
  | cons c rest ih =>
      intro hs
      simp only [layoutChildren, flattenList] at hs
      rcases List.mem_append.mp hs with h1 | h2
      · exact ⟨c, List.mem_cons_self c rest, _, _, h1⟩
      · rcases ih (cur + calculateTreeWidth c) h2 with ⟨z, hz, x', y', hmem⟩
        exact ⟨z, List.mem_cons_of_mem c hz, x', y', hmem⟩

/-- Every node of a laid-out tree is itself the layout of some subtree at some
coordinates. -/
theorem mem_flatten_layout : ∀ (t : MindMapNodeData) (x y : ℚ),
    ∀ s ∈ flattenNodes (layoutTree t x y), ∃ t' x' y', s = layoutTree t' x' y' := by
  intro t
  induction t using mindMapNodeInd with
  | _ i tp ct cs ih =>
      intro x y s hs
      simp only [layoutTree, flattenNodes] at hs
      rcases List.mem_cons.mp hs with rfl | hs'
      · exact ⟨.mk i tp ct cs, x, y, rfl⟩
      · rcases mem_flattenList_layoutChildren cs _ _ s hs' with ⟨c, hc, x', y', hmem⟩
        exact ih c hc x' y' s hmem

/-- C6: the `subtreeWidth` invariant of `layoutTree`.  First, every box of a
laid-out subtree lies inside the subtree's allotted horizontal interval of width
`calculateTreeWidth` (which is `NODE_WIDTH + HORIZONTAL_SPACING` for a leaf and
the sum of the children's subtree widths otherwise) centred on the subtree
root's box centre.  Second, for any node of the positioned tree, the horizontal
spans of two distinct sibling subtrees are disjoint: every box of the earlier
sibling's subtree ends before (or exactly where) every box of the later one
begins. -/
theorem layout_sibling_subtrees_disjoint :
    (∀ (t : MindMapNodeData) (x y : ℚ), ∀ p ∈ flattenNodes (layoutTree t x y),
        x + NODE_WIDTH / 2 - calculateTreeWidth t / 2 ≤ p.x ∧
        p.x + NODE_WIDTH ≤ x + NODE_WIDTH / 2 + calculateTreeWidth t / 2) ∧
    (∀ (t : MindMapNodeData) (x y : ℚ), ∀ s ∈ flattenNodes (layoutTree t x y),
        ∀ i j, i < j →
          ∀ (hi : i < s.children.length) (hj : j < s.children.length),
          ∀ p ∈ flattenNodes (s.children.get ⟨i, hi⟩),
          ∀ q ∈ flattenNodes (s.children.get ⟨j, hj⟩),
          p.x + NODE_WIDTH ≤ q.x) := by
  refine ⟨layout_contained, ?_⟩
  intro t x y s hs i j hij hi hj p hp q hq
  rcases mem_flatten_layout t x y s hs with ⟨t', x', y', rfl⟩
  cases t' with
  | mk i' tp' ct' cs' =>
      exact layoutChildren_sibling cs' _ _ i j hij hi hj p hp q hq

/-- Concrete three-node tree: a root with two leaf children. -/
def c6Tree : MindMapNodeData := .mk "r" "" "" [.mk "a" "" "" [], .mk "b" "" "" []]

/-- The starting cursor of the child loop for `c6Tree` laid out at the origin. -/
def c6CurStart : ℚ :=
  0 - max NODE_WIDTH (sumWidths [MindMapNodeData.mk "a" "" "" [],
    MindMapNodeData.mk "b" "" "" []]) / 2 + NODE_WIDTH / 2

/-- The child row's vertical coordinate for `c6Tree` laid out at the origin. -/
def c6ChildY : ℚ := 0 + NODE_HEIGHT + VERTICAL_SPACING

/-- The positioned first child of `c6Tree`. -/
def c6P : NodePosition :=
  layoutTree (.mk "a" "" "" [])
    (c6CurStart + calculateTreeWidth (MindMapNodeData.mk "a" "" "" []) / 2 - NODE_WIDTH / 2)
    c6ChildY

/-- The positioned second child of `c6Tree`. -/
def c6Q : NodePosition :=
  layoutTree (.mk "b" "" "" [])
    (c6CurStart + calculateTreeWidth (MindMapNodeData.mk "a" "" "" []) +
      calculateTreeWidth (MindMapNodeData.mk "b" "" "" []) / 2 - NODE_WIDTH / 2)
    c6ChildY

/-- Witness for the sibling-disjointness theorem at the concrete two-leaf tree:
the first child's box ends at or before the second child's box begins. -/
theorem layout_sibling_disjoint_witness : c6P.x + NODE_WIDTH ≤ c6Q.x :=
  layout_sibling_subtrees_disjoint.2 c6Tree 0 0 (layoutTree c6Tree 0 0)
    (List.Mem.head _) 0 1 (by decide) (by decide) (by decide)
    c6P (List.Mem.head _) c6Q (List.Mem.head _)

/-- The `viewBox` state of MindMap.tsx: `{x, y, width, height}` in scene
coordinates. -/
structure ViewBox where
  x : ℚ
  y : ℚ
  width : ℚ
  height : ℚ
deriving DecidableEq, Repr

/-- `handleWheel` (MindMap.tsx line 113-134): scale `width`/`height` by the fixed
factor 1.1 (zoom out when `deltaY > 0`, its inverse otherwise) and shift `x`/`y`
by the mouse position's fraction of the size change, so the scene point under
the cursor stays fixed.  `rectWidth`/`rectHeight`/`rectLeft`/`rectTop` are the
SVG element's bounding client rect and `clientX`/`clientY` the mouse position. -/
def handleWheel (vb : ViewBox) (rectWidth rectHeight rectLeft rectTop : ℚ)
    (clientX clientY deltaY : ℚ) : ViewBox :=
  let scaleFactor : ℚ := 11 / 10
  let mouseX := clientX - rectLeft
  let mouseY := clientY - rectTop
  let newWidth := if 0 < deltaY then vb.width * scaleFactor else vb.width / scaleFactor
  let newHeight := if 0 < deltaY then vb.height * scaleFactor else vb.height / scaleFactor
  let dx := mouseX / rectWidth * (vb.width - newWidth)
  let dy := mouseY / rectHeight * (vb.height - newHeight)
  { x := vb.x + dx, y := vb.y + dy, width := newWidth, height := newHeight }

/-- The scene-space x-coordinate of the point drawn under the pixel `clientX`
(uniform viewBox-to-viewport mapping). -/
def sceneAnchorX (vb : ViewBox) (rectWidth rectLeft clientX : ℚ) : ℚ :=
  vb.x + (clientX - rectLeft) / rectWidth * vb.width

/-- The scene-space y-coordinate of the point drawn under the pixel `clientY`. -/
def sceneAnchorY (vb : ViewBox) (rectHeight rectTop clientY : ℚ) : ℚ :=
  vb.y + (clientY - rectTop) / rectHeight * vb.height

/-- C7: wheel zoom is invertible and anchor-preserving.  A zoom-out step
(`deltaY > 0`, factor 1.1) followed by a zoom-in step (`deltaY ≤ 0`, factor
1/1.1) at the same anchor restores the `ViewBox` exactly (and in the opposite
order as well), and every single wheel step leaves the scene point under the
cursor fixed. -/
theorem handleWheel_roundtrip_and_anchor (vb : ViewBox)
    (rW rH rL rT cX cY dOut dIn : ℚ) (hOut : 0 < dOut) (hIn : ¬(0 < dIn)) :
    handleWheel (handleWheel vb rW rH rL rT cX cY dOut) rW rH rL rT cX cY dIn = vb ∧
    handleWheel (handleWheel vb rW rH rL rT cX cY dIn) rW rH rL rT cX cY dOut = vb ∧
    (∀ d : ℚ,
      sceneAnchorX (handleWheel vb rW rH rL rT cX cY d) rW rL cX =
        sceneAnchorX vb rW rL cX ∧
      sceneAnchorY (handleWheel vb rW rH rL rT cX cY d) rH rT cY =
        sceneAnchorY vb rH rT cY) := by
  obtain ⟨vx, vy, vw, vh⟩ := vb
  refine ⟨?_, ?_, ?_⟩
  · simp only [handleWheel, hOut, hIn, if_true, if_false, ViewBox.mk.injEq]
    refine ⟨?_, ?_, ?_, ?_⟩ <;> ring
  · simp only [handleWheel, hOut, hIn, if_true, if_false, ViewBox.mk.injEq]
    refine ⟨?_, ?_, ?_, ?_⟩ <;> ring
  · intro d
    by_cases hd : 0 < d
    · simp only [handleWheel, hd, if_true, sceneAnchorX, sceneAnchorY]
      exact ⟨by ring, by ring⟩
    · simp only [handleWheel, hd, if_false, sceneAnchorX, sceneAnchorY]
      exact ⟨by ring, by ring⟩

/-- Witness for the wheel-zoom theorem at a concrete `ViewBox` and window: a
zoom-out (`deltaY = 1`) then a zoom-in (`deltaY = 0 - 1`) restores the
`ViewBox`, and the anchor is preserved. -/
theorem handleWheel_roundtrip_witness :
    handleWheel (handleWheel ⟨0, 0, 1000, 800⟩ 500 400 10 20 100 200 1)
        500 400 10 20 100 200 (0 - 1) = ⟨0, 0, 1000, 800⟩ ∧
    sceneAnchorX (handleWheel ⟨0, 0, 1000, 800⟩ 500 400 10 20 100 200 1) 500 10 100 =
      sceneAnchorX ⟨0, 0, 1000, 800⟩ 500 10 100 :=
  ⟨(handleWheel_roundtrip_and_anchor ⟨0, 0, 1000, 800⟩ 500 400 10 20 100 200 1 (0 - 1)
      one_pos (by norm_num)).1,
   ((handleWheel_roundtrip_and_anchor ⟨0, 0, 1000, 800⟩ 500 400 10 20 100 200 1 (0 - 1)
      one_pos (by norm_num)).2.2 1).1⟩

/-- The pinch snapshot stored in `pinchState` (part_002 line 60): the initial
inter-pointer distance, the scene-space midpoint of the two pointers, and the
`ViewBox` at pinch start. -/
structure PinchState where
  distance : ℚ
  centerX : ℚ
  centerY : ℚ
  vb : ViewBox
deriving DecidableEq, Repr

/-- The pinch-start branch of `handlePointerDown` (part_002 line 163-176): when a
second pointer goes down, snapshot the inter-pointer distance, the scene-space
midpoint of the two pointers, and the current `ViewBox`.  `dist` is the value of
`Math.hypot(p1x - p2x, p1y - p2y)`, passed in as a parameter because the square
root of a rational is in general not rational; the claims quantify over it. -/
def handlePointerDownPinch (p1x p1y p2x p2y rectWidth rectHeight rectLeft rectTop : ℚ)
    (vb : ViewBox) (dist : ℚ) : PinchState :=
  let cx := (p1x + p2x) / 2
  let cy := (p1y + p2y) / 2
  { distance := dist
    centerX := vb.x + (cx - rectLeft) / rectWidth * vb.width
    centerY := vb.y + (cy - rectTop) / rectHeight * vb.height
    vb := vb }

/-- The pinch branch of `handlePointerMove` (part_002 line 184-198): with a live
snapshot and a new inter-pointer distance (again the `Math.hypot` value, passed
in), scale the snapshotted `ViewBox` by `snapshot.distance / newDist` around the
snapshotted scene midpoint; a non-positive distance returns early, leaving the
current `ViewBox` unchanged. -/
def handlePointerMovePinch (ps : PinchState) (current : ViewBox) (newDist : ℚ) :
    ViewBox :=
  if newDist ≤ 0 then current
  else
    let scale := ps.distance / newDist
    { x := ps.centerX - (ps.centerX - ps.vb.x) * scale
      y := ps.centerY - (ps.centerY - ps.vb.y) * scale
      width := ps.vb.width * scale
      height := ps.vb.height * scale }

/-- C8: a pinch session started at distance `d0 > 0` with snapshotted scene
midpoint `m` and `ViewBox` `vb`, updated at distance `d0 / 2`, doubles the
`ViewBox` width and height exactly and keeps `m` at the same relative position
in the viewport (stated multiplicatively: `(m − x) / width` is unchanged). -/
theorem pinch_half_distance_doubles (p1x p1y p2x p2y rW rH rL rT : ℚ)
    (vb current : ViewBox) (d0 : ℚ) (hd : 0 < d0) :
    (handlePointerMovePinch
        (handlePointerDownPinch p1x p1y p2x p2y rW rH rL rT vb d0) current
        (d0 / 2)).width = 2 * vb.width ∧
    (handlePointerMovePinch
        (handlePointerDownPinch p1x p1y p2x p2y rW rH rL rT vb d0) current
        (d0 / 2)).height = 2 * vb.height ∧
    ((handlePointerDownPinch p1x p1y p2x p2y rW rH rL rT vb d0).centerX -
        (handlePointerMovePinch
          (handlePointerDownPinch p1x p1y p2x p2y rW rH rL rT vb d0) current
          (d0 / 2)).x) * vb.width =
      ((handlePointerDownPinch p1x p1y p2x p2y rW rH rL rT vb d0).centerX - vb.x) *
        (handlePointerMovePinch
          (handlePointerDownPinch p1x p1y p2x p2y rW rH rL rT vb d0) current
          (d0 / 2)).width ∧
    ((handlePointerDownPinch p1x p1y p2x p2y rW rH rL rT vb d0).centerY -
        (handlePointerMovePinch
          (handlePointerDownPinch p1x p1y p2x p2y rW rH rL rT vb d0) current
          (d0 / 2)).y) * vb.height =
      ((handlePointerDownPinch p1x p1y p2x p2y rW rH rL rT vb d0).centerY - vb.y) *
        (handlePointerMovePinch
          (handlePointerDownPinch p1x p1y p2x p2y rW rH rL rT vb d0) current
          (d0 / 2)).height := by
  have hguard : ¬(d0 / 2 ≤ 0) := by
    intro h
    linarith
  have hscale : d0 / (d0 / 2) = 2 := by
    field_simp
  simp only [handlePointerMovePinch, handlePointerDownPinch, hguard, if_false, hscale]
  refine ⟨by ring, by ring, by ring, by ring⟩

/-- Witness for the pinch theorem at concrete pointers, window and `ViewBox`:
starting a pinch at distance 1 and updating at distance 1/2 doubles width and
height while keeping the snapshotted midpoint's relative position. -/
theorem pinch_half_distance_witness :
    (handlePointerMovePinch
        (handlePointerDownPinch 0 0 3 4 500 400 0 0 ⟨0, 0, 1000, 800⟩ 1)
        ⟨0, 0, 1000, 800⟩ (1 / 2)).width = 2 * (1000 : ℚ) ∧
    (handlePointerMovePinch
        (handlePointerDownPinch 0 0 3 4 500 400 0 0 ⟨0, 0, 1000, 800⟩ 1)
        ⟨0, 0, 1000, 800⟩ (1 / 2)).height = 2 * (800 : ℚ) :=
  ⟨(pinch_half_distance_doubles 0 0 3 4 500 400 0 0 ⟨0, 0, 1000, 800⟩
      ⟨0, 0, 1000, 800⟩ 1 one_pos).1,
   (pinch_half_distance_doubles 0 0 3 4 500 400 0 0 ⟨0, 0, 1000, 800⟩
      ⟨0, 0, 1000, 800⟩ 1 one_pos).2.1⟩

/-- Runtime shape of a parsed record as `buildTreeFromFlat` actually receives it:
the JSON is cast unchecked (`parsed as FlatMindMapNode[]`), so any field may be
`undefined` at runtime, modelled by `Option`. -/
structure RawFlatRecord where
  id : Option String
  parentId : Option String
  topic : Option String
  content : Option String
deriving DecidableEq, Repr

/-- Map value for the runtime-shaped builder: possibly-undefined scalar fields
plus the children keys. -/
structure RawNodeRec where
  topic : Option String
  content : Option String
  children : List (Option String)
deriving DecidableEq, Repr

/-- Runtime-shaped tree: the node fields flow through unvalidated, so they may be
`undefined`. -/
inductive RawTree : Type where
  | mk (id topic content : Option String) (children : List RawTree)

/-- Field accessor mirroring `node.id` on the runtime-shaped tree. -/
def RawTree.id : RawTree → Option String
  | .mk i _ _ _ => i

/-- First pass of `buildTreeFromFlat` on runtime-shaped records: `undefined` is a
legitimate `Map` key, distinct from every string. -/
def rawPhase1 (items : List RawFlatRecord) : List (Option String × RawNodeRec) :=
  items.foldl (fun m it => mapSet m it.id ⟨it.topic, it.content, []⟩) []

/-- `it.parentId || ''`: `undefined` and the empty string both normalize to the
empty string. -/
def rawParentId (it : RawFlatRecord) : String := it.parentId.getD ""

/-- `map.get(parentId)!.children.push(node)` on the runtime-shaped map: the
lookup key is the (string) `parentId`, which only ever matches string keys. -/
def rawAddChild : List (Option String × RawNodeRec) → String → Option String →
    List (Option String × RawNodeRec)
  | [], _, _ => []
  | e :: rest, p, c =>
      if e.1 = some p then (e.1, ⟨e.2.topic, e.2.content, e.2.children ++ [c]⟩) :: rest
      else e :: rawAddChild rest p c

/-- One iteration of the linking loop on runtime-shaped records. -/
def rawLinkStep (st : List (Option String × RawNodeRec) × List (Option String))
    (it : RawFlatRecord) :
    List (Option String × RawNodeRec) × List (Option String) :=
  if rawParentId it ≠ "" ∧ mapHas st.1 (some (rawParentId it)) then
    (rawAddChild st.1 (rawParentId it) it.id, st.2)
  else
    (st.1, st.2 ++ [it.id])

/-- Both passes of `buildTreeFromFlat` on runtime-shaped records. -/
def rawBuildLink (items : List RawFlatRecord) :
    List (Option String × RawNodeRec) × List (Option String) :=
  items.foldl rawLinkStep (rawPhase1 items, [])

/-- Depth-bounded reading of the runtime-shaped object graph. -/
def rawUnfoldId (m : List (Option String × RawNodeRec)) :
    Nat → Option String → RawTree
  | 0, i => .mk i none none []
  | fuel + 1, i =>
      match mapGet m i with
      | some n => .mk i n.topic n.content (n.children.map (rawUnfoldId m fuel))
      | none => .mk i none none []

/-- `buildTreeFromFlat` on the runtime-shaped records: the function body performs
no validation and contains no `throw`, so it is total — malformed records flow
through with their missing fields. -/
def buildTreeFromFlatRaw (items : List RawFlatRecord) (fuel : Nat) : RawTree :=
  match (rawBuildLink items).2 with
  | [r] => rawUnfoldId (rawBuildLink items).1 fuel r
  | _ =>
      .mk (some "root") (some "Mind Map") (some "Auto-constructed root")
        ((rawBuildLink items).2.map (rawUnfoldId (rawBuildLink items).1 fuel))

/-- Whether some runtime record has the given (possibly undefined) id. -/
def rawHasId (items : List RawFlatRecord) (k : Option String) : Bool :=
  items.any (fun it => it.id = k)

/-- Attachment condition for a runtime record. -/
def rawIsAttached (items : List RawFlatRecord) (it : RawFlatRecord) : Bool :=
  (!(rawParentId it = "" : Bool)) && rawHasId items (some (rawParentId it))

/-- Root candidates of a runtime record list, one per occurrence, in order. -/
def rawRootCandidateIds (items : List RawFlatRecord) : List (Option String) :=
  (items.filter (fun it => !(rawIsAttached items it))).map (·.id)

/-- Key membership in the runtime phase-1 map is `rawHasId`. -/
theorem rawMapHas_phase1 (items : List RawFlatRecord) (k : Option String) :
    mapHas (rawPhase1 items) k = rawHasId items k := by
  suffices h : ∀ (l : List RawFlatRecord) (m : List (Option String × RawNodeRec)),
      mapHas (l.foldl (fun m it => mapSet m it.id ⟨it.topic, it.content, []⟩) m) k =
        (mapHas m k || l.any (fun it => it.id = k)) by
    simpa [rawPhase1, rawHasId] using h items []
  intro l
  induction l with
  | nil => simp
  | cons it rest ih =>
      intro m
      simp only [List.foldl_cons, List.any_cons]
      rw [ih]
      by_cases hk : it.id = k
      · subst hk
        simp [mapHas, mapGet_mapSet_self]
      · rw [show mapHas (mapSet m it.id ⟨it.topic, it.content, []⟩) k = mapHas m k by
          simp [mapHas, mapGet_mapSet_ne m it.id k _ hk]]
        simp [hk]

/-- `rawAddChild` does not change which keys are present. -/
theorem rawMapHas_addChild (m : List (Option String × RawNodeRec)) (p : String)
    (c : Option String) (k : Option String) :
    mapHas (rawAddChild m p c) k = mapHas m k := by
  induction m with
  | nil => rfl
  | cons e rest ih =>
      by_cases hp : e.1 = some p
      · by_cases hk : e.1 = k <;>
          · simp only [rawAddChild, mapHas, mapGet, hp, hk, if_pos, if_neg]
            split <;> rfl
      · simp only [rawAddChild]
        rw [if_neg hp]
        by_cases hk : e.1 = k
        · simp [mapHas, mapGet, hk]
        · simpa [mapHas, mapGet, hk] using ih

/-- A runtime `rawLinkStep` never changes which keys are present. -/
theorem rawMapHas_linkStep
    (st : List (Option String × RawNodeRec) × List (Option String))
    (it : RawFlatRecord) (k : Option String) :
    mapHas (rawLinkStep st it).1 k = mapHas st.1 k := by
  unfold rawLinkStep
  split
  · exact rawMapHas_addChild st.1 (rawParentId it) it.id k
  · rfl

/-- The runtime `roots` array is exactly the runtime root candidates, one per
occurrence, in input order. -/
theorem rawBuildLink_roots (items : List RawFlatRecord) :
    (rawBuildLink items).2 = rawRootCandidateIds items := by
  suffices h : ∀ (l : List RawFlatRecord)
      (m : List (Option String × RawNodeRec)) (r : List (Option String)),
      (∀ k, mapHas m k = rawHasId items k) →
      (l.foldl rawLinkStep (m, r)).2 =
        r ++ (l.filter (fun it => !(rawIsAttached items it))).map (·.id) by
    exact (h items (rawPhase1 items) [] (rawMapHas_phase1 items)).trans
      (by simp [rawRootCandidateIds])
  intro l
  induction l with
  | nil => intro m r _; simp
  | cons it rest ih =>
      intro m r hm
      simp only [List.foldl_cons]
      by_cases hatt : rawParentId it ≠ "" ∧ mapHas m (some (rawParentId it))
      · have hbool : rawIsAttached items it = true := by
          simp only [rawIsAttached, Bool.and_eq_true, Bool.not_eq_true']
          constructor
          · exact decide_eq_false hatt.1
          · rw [← hm (some (rawParentId it))]; exact hatt.2
        have hstep : rawLinkStep (m, r) it = (rawAddChild m (rawParentId it) it.id, r) := by
          simp [rawLinkStep, hatt]
        rw [hstep]
        have hkeys : ∀ k, mapHas (rawAddChild m (rawParentId it) it.id) k =
            rawHasId items k := by
          intro k; rw [rawMapHas_addChild]; exact hm k
        rw [ih (rawAddChild m (rawParentId it) it.id) r hkeys]
        simp [List.filter_cons, hbool]
      · have hbool : rawIsAttached items it = false := by
          rcases Decidable.not_and_iff_or_not.mp hatt with h | h
          · have : rawParentId it = "" := by
              by_contra hne; exact h hne
            simp [rawIsAttached, this]
          · have : rawHasId items (some (rawParentId it)) = false := by
              rw [← hm (some (rawParentId it))]
              exact Bool.eq_false_iff.mpr (fun hh => h (by simp [hh]))
            simp [rawIsAttached, this]
        have hstep : rawLinkStep (m, r) it = (m, r ++ [it.id]) := by
          simp only [rawLinkStep]
          rw [if_neg hatt]
        rw [hstep, ih m (r ++ [it.id]) hm]
        simp [List.filter_cons, hbool]

/-- The runtime graph reading keeps the id it starts from. -/
theorem rawUnfoldId_id (m : List (Option String × RawNodeRec)) (fuel : Nat)
    (i : Option String) : (rawUnfoldId m fuel i).id = i := by
  cases fuel with
  | zero => rfl
  | succ fuel =>
      simp only [rawUnfoldId]
      cases mapGet m i <;> rfl

/-- C9 (amended): `buildTreeFromFlat` never raises, for malformed records
included.  The function body contains no validation and no `throw`: a record with
missing required fields flows through with the fields `undefined` (here: a record
with missing topic and content yields that node unchanged), and for every
runtime record list the result is resolved by the synthetic-root policy — the
unique root candidate when there is exactly one, the synthetic `root` node
otherwise.  No `ValidationError` exists anywhere in the code. -/
theorem buildRaw_never_raises (items : List RawFlatRecord) (fuel : Nat) :
    buildTreeFromFlatRaw [⟨some "a", some "", none, none⟩] 1 =
      .mk (some "a") none none [] ∧
    (∀ r, rawRootCandidateIds items = [r] → (buildTreeFromFlatRaw items fuel).id = r) ∧
    ((rawRootCandidateIds items).length ≠ 1 →
      (buildTreeFromFlatRaw items fuel).id = some "root") := by
  have hroots := rawBuildLink_roots items
  refine ⟨rfl, ?_, ?_⟩
  · intro r hr
    unfold buildTreeFromFlatRaw
    rw [hroots, hr]
    exact rawUnfoldId_id _ fuel r
  · intro hlen
    unfold buildTreeFromFlatRaw
    rw [hroots]
    rcases hcase : rawRootCandidateIds items with _ | ⟨r, _ | ⟨r2, rest⟩⟩
    · rfl
    · exact absurd (by rw [hcase]; rfl) hlen
    · rfl

/-- C9 counterexample: on a structurally malformed record (required fields
`topic` and `content` missing) `build` does not fail with a `ValidationError` —
it returns the node with the missing fields left undefined. -/
theorem buildRaw_malformed_returns :
    buildTreeFromFlatRaw [⟨some "a", some "", none, none⟩] 1 =
      .mk (some "a") none none [] := rfl

/-- Witness for the never-raises theorem: a two-candidate runtime list resolves
to the synthetic root, and a single-candidate list to that candidate. -/
theorem buildRaw_never_raises_witness :
    (buildTreeFromFlatRaw [⟨some "a", some "", none, none⟩,
      ⟨some "b", none, none, none⟩] 1).id = some "root" ∧
    (buildTreeFromFlatRaw [⟨some "a", some "", none, none⟩] 1).id = some "a" :=
  ⟨(buildRaw_never_raises [⟨some "a", some "", none, none⟩,
      ⟨some "b", none, none, none⟩] 1).2.2 (by decide),
   (buildRaw_never_raises [⟨some "a", some "", none, none⟩] 1).2.1
      (some "a") (by decide)⟩

/-- JavaScript `'  '.repeat(depth)`. -/
def repeatStr (s : String) (n : Nat) : String := String.join (List.replicate n s)

mutual

/-- `formatMindMapForPdf` (part_001 line 15-26): one `Topic:` line per node, a
`Content:` line followed by a blank line only when the content is non-empty
(JavaScript truthiness of `node.content`), then the children at depth + 1;
indentation is two spaces per depth level. -/
def formatMindMapForPdf : MindMapNodeData → Nat → String
  | .mk _ tp ct cs, depth =>
      (repeatStr "  " depth ++ "Topic: " ++ tp ++ "\n") ++
        ((if ct ≠ "" then repeatStr "  " depth ++ "Content: " ++ ct ++ "\n\n" else "") ++
          formatList cs (depth + 1))

/-- The `for (const child of node.children)` accumulation of
`formatMindMapForPdf`. -/
def formatList : List MindMapNodeData → Nat → String
  | [], _ => ""
  | c :: rest, depth => formatMindMapForPdf c depth ++ formatList rest depth

end

mutual

/-- Modelled from the spec's words (amended): the ordered sequence of text lines
of the export — for each node, depth-first and children in order, a line
`"Topic: " ++ topic` indented by two spaces per depth level, then, when the
content is non-empty, a line `"Content: " ++ content` with the same indentation
followed by a blank line. -/
def pdfLines : MindMapNodeData → Nat → List String
  | .mk _ tp ct cs, depth =>
      (repeatStr "  " depth ++ "Topic: " ++ tp) ::
        ((if ct ≠ "" then [repeatStr "  " depth ++ "Content: " ++ ct, ""] else []) ++
          pdfLinesList cs (depth + 1))

/-- The forest part of `pdfLines`. -/
def pdfLinesList : List MindMapNodeData → Nat → List String
  | [], _ => []
  | c :: rest, depth => pdfLines c depth ++ pdfLinesList rest depth

end

/-- Render a sequence of lines as text, one trailing newline per line. -/
def joinLines : List String → String
  | [] => ""
  | l :: rest => l ++ "\n" ++ joinLines rest

/-- `joinLines` distributes over list append. -/
theorem joinLines_append (a b : List String) :
    joinLines (a ++ b) = joinLines a ++ joinLines b := by
  induction a with
  | nil => simp [joinLines]
  | cons l rest ih => simp [joinLines, ih, String.append_assoc]

/-- C10 (amended): the export renders, depth-first with a node before its
children and children in order, one `Topic:` line per node and a `Content:` line
(followed by a blank line) only for nodes with non-empty content, each line
indented by two spaces per depth level: `formatMindMapForPdf` is exactly the
line sequence `pdfLines` joined with newlines. -/
theorem formatMindMapForPdf_renders_lines : ∀ (t : MindMapNodeData) (depth : Nat),
    formatMindMapForPdf t depth = joinLines (pdfLines t depth) := by
  intro t
  induction t using mindMapNodeInd with
  | _ i tp ct cs ih =>
      intro depth
      have hlist : ∀ d, formatList cs d = joinLines (pdfLinesList cs d) := by
        intro d
        induction cs with
        | nil => rfl
        | cons c rest ihl =>
            simp only [formatList, pdfLinesList, joinLines_append]
            rw [ih c (by simp) d, ihl (fun z hz => ih z (by simp [hz]))]
      simp only [formatMindMapForPdf, pdfLines, joinLines, joinLines_append, hlist]
      by_cases hct : ct ≠ ""
      · rw [if_pos hct, if_pos hct]
        simp only [joinLines]
        rw [show ("\n\n" : String) = "\n" ++ "\n" from rfl]
        simp [String.append_assoc]
      · rw [if_neg hct, if_neg hct]
        simp [joinLines, String.append_assoc]

/-- C10 counterexample: a node with empty content gets no `Content:` line at all,
so the export does not contain one `Topic:`/`Content:` pair per node. -/
theorem formatPdf_no_content_line :
    formatMindMapForPdf (.mk "a" "T" "" []) 0 = "Topic: T\n" ∧
    strContains (formatMindMapForPdf (.mk "a" "T" "" []) 0) "Content:" = false := by
  decide

end FlashcardWire
